import Mathlib

/-!
Verification of the distributed checkpoint state-dict translation layer of
`nemo/lightning/pytorch/strategies/utils.py`: the bidirectional conversion
between megatron-core sharded tensors (Dialect A) and torch sharded tensors
(Dialect B).

The Python source is shallowly embedded below.  Machine integers are `Nat`
(shapes, offsets and fragmentation counts are non-negative); Python dicts
become association lists in insertion order; fallible code returns
`Except PyError`.  Functions of the repository are translated line by line
from the source; library functions of megatron-core / torch that the source
calls but that are not part of the repository are modelled from the
specification and carry a doc comment saying so.
-/

namespace NeMo

/-- An opaque tensor buffer: only its identity and shape matter to the
translation layer; the numeric payload is never inspected. -/
structure Tensor where
  uid : Nat
  shape : List Nat
deriving DecidableEq, Repr

/-- An opaque byte blob (`io.BytesIO`): only its identity matters. -/
structure BytesBuf where
  uid : Nat
deriving DecidableEq, Repr

/-- A megatron replica id: either a plain integer (tensors get `0`) or the
triple used for sharded objects. -/
inductive ReplicaId where
  | nat : Nat → ReplicaId
  | triple : Nat → Nat → Nat → ReplicaId
deriving DecidableEq, Repr

/-- Metadata of one local shard of a torch `ShardedTensor` (Dialect B):
per-axis offsets and sizes, plus an opaque placement tag. -/
structure TorchShardMetadata where
  shard_offsets : List Nat
  shard_sizes : List Nat
  placement : Nat
deriving DecidableEq, Repr

/-- One local shard record of a torch `ShardedTensor`: the local buffer and
its metadata. -/
structure LocalShard where
  tensor : Tensor
  metadata : TorchShardMetadata
deriving DecidableEq, Repr

/-- A torch `ShardedTensor` (Dialect B) as seen by the translation layer:
`size` is the declared global shape (`metadata().size`), `shards` the local
shard records (`local_shards()`). -/
structure TorchShardedTensor where
  size : List Nat
  shards : List LocalShard
deriving DecidableEq, Repr

/-- A megatron-core `ShardedTensor` (Dialect A) descriptor. -/
structure McoreShardedTensor where
  key : String
  data : Tensor
  global_shape : List Nat
  global_offset : List Nat
  axis_fragmentations : List Nat
  replica_id : ReplicaId
  prepend_axis_num : Nat
  allow_shape_mismatch : Bool
deriving DecidableEq, Repr

/-- A megatron-core `ShardedObject`: an opaque blob with offset metadata and
a replica id; never shape-validated. -/
structure ShardedObject where
  key : String
  data : BytesBuf
  shape : List Nat
  offset : List Nat
  replica_id : ReplicaId
deriving DecidableEq, Repr

/-- The runtime failures the embedded Python can raise. -/
inductive PyError where
  | assertMissing (k : String)      -- `assert k in sharded_state_dict`
  | keyError (k : String)           -- dict lookup of an absent key
  | typeError                       -- indexing a non-dict by string
  | indexError                      -- list index out of range
  | valueError                      -- `int()` on a non-numeric component
  | zeroDiv                         -- integer division by zero
  | shapeMismatch (k : String)      -- metadata validation failure
  | assertPlacement                 -- placement assert in the tensor conversion
  | assertNumLayers                 -- `assert num_layers != 0`
deriving DecidableEq, Repr

/-- Association-list lookup (Python `d[k]` / `k in d`), first match wins. -/
def alookup {α : Type} : List (String × α) → String → Option α
  | [], _ => none
  | (k', v) :: rest, k => if k' = k then some v else alookup rest k

/-- Association-list store (Python `d[k] = v`): replaces the first binding of
`k`, appends a new binding when `k` is absent. -/
def astore {α : Type} : List (String × α) → String → α → List (String × α)
  | [], k, v => [(k, v)]
  | (k', v') :: rest, k, v => if k' = k then (k, v) :: rest else (k', v') :: astore rest k v

/-- Modelled from the spec: `megatron.core` `ShardedTensor.validate_metadata_integrity`
(library code, not under `src/`).  Per the spec, validation requires
`len(global_offset) == len(global_shape) == len(axis_fragmentations)` and,
with the local shape extended by one synthetic unit extent per prepend axis,
per axis: `global_shape[i] == local_extent[i] * fragmentation[i]` (waived when
`allow_shape_mismatch`) and `offset[i] == rank_offset[i] * local_extent[i]`,
i.e. the local extent divides the offset. -/
def validate_metadata_integrity (s : McoreShardedTensor) : Bool :=
  let localShape := List.replicate s.prepend_axis_num 1 ++ s.data.shape
  s.global_shape.length == s.global_offset.length
    && s.global_shape.length == s.axis_fragmentations.length
    && s.global_shape.length == localShape.length
    && (List.range localShape.length).all (fun i =>
        let l := localShape.getD i 0
        let g := s.global_shape.getD i 0
        let f := s.axis_fragmentations.getD i 0
        let o := s.global_offset.getD i 0
        (s.allow_shape_mismatch || g == f * l) && o % l == 0)

/-- The state threaded through `from_rank_offsets`: the global shape, global
offset and axis fragmentation lists under construction. -/
abbrev RankState := List Nat × List Nat × List Nat

/-- One `(axis, axis_rank_offset, axis_fragm)` entry of `from_rank_offsets`
applied to the state: the axis's global extent becomes
`fragm * local_extent`, its offset `rank_offset * local_extent`, where the
local extent is `1` on a prepend axis and the data's extent otherwise. -/
def rankStep (shape : List Nat) (p : Nat) (st : RankState) (t : Nat × Nat × Nat) : RankState :=
  let l := if t.1 < p then 1 else shape.getD (t.1 - p) 0
  (st.1.set t.1 (t.2.2 * l), st.2.1.set t.1 (t.2.1 * l), st.2.2.set t.1 t.2.2)

/-- Starting state of `from_rank_offsets`: one synthetic unit extent per
prepend axis followed by the data's shape, zero offsets, unit
fragmentations. -/
def initState (shape : List Nat) (p : Nat) : RankState :=
  (List.replicate p 1 ++ shape,
   List.replicate (p + shape.length) 0,
   List.replicate (p + shape.length) 1)

/-- Modelled from the spec: `megatron.core` `ShardedTensor.from_rank_offsets`
(library code, not under `src/`).  Builds a Dialect-A descriptor from
`(axis, axis_rank_offset, axis_fragm)` triples: starting from `initState`,
each triple sets its axis as in `rankStep` (later triples for the same axis
overwrite earlier ones).  Axes are assumed in range.  The descriptor carries
the given replica id, `prepend_axis_num` and `allow_shape_mismatch` flag. -/
def from_rank_offsets (key : String) (data : Tensor) (offsets : List (Nat × Nat × Nat))
    (replica : ReplicaId) (p : Nat) (allow : Bool) : McoreShardedTensor :=
  let st := offsets.foldl (rankStep data.shape p) (initState data.shape p)
  { key := key, data := data, global_shape := st.1, global_offset := st.2.1,
    axis_fragmentations := st.2.2, replica_id := replica,
    prepend_axis_num := p, allow_shape_mismatch := allow }

/-- Modelled from the spec: megatron's `sharded_tensor_to_torch_sharded_tensor`
(library code, not under `src/`).  Aggregates the per-shard Dialect-A
descriptors for one key into a Dialect-B sharded tensor whose metadata
exposes the (common) global size and one local shard record per descriptor,
with the descriptor's global offset as the shard's offsets and the attached
buffer's shape as the shard's sizes. -/
def sharded_tensor_to_torch_sharded_tensor (sh_tens : List McoreShardedTensor) :
    TorchShardedTensor :=
  { size := match sh_tens with
      | [] => []
      | s :: _ => s.global_shape
    shards := sh_tens.map (fun s =>
      { tensor := s.data,
        metadata := { shard_offsets := s.global_offset, shard_sizes := s.data.shape,
                      placement := 0 } }) }

/-- The in-place mutation that `_mcore_to_pyt_sharded_tensor` performs on one
descriptor paired with its loaded buffer: the first `prepend_axis_num`
entries are removed from `global_shape`, `global_offset` and
`axis_fragmentations`, `prepend_axis_num` is reset to `0`, and `data` is
rebound to the buffer (utils.py lines 108-112). -/
def stripApply (ten : Tensor) (s : McoreShardedTensor) : McoreShardedTensor :=
  { s with
    global_shape := s.global_shape.drop s.prepend_axis_num,
    global_offset := s.global_offset.drop s.prepend_axis_num,
    axis_fragmentations := s.axis_fragmentations.drop s.prepend_axis_num,
    prepend_axis_num := 0,
    data := ten }

/-- One iteration of the `zip` loop of `_mcore_to_pyt_sharded_tensor`:
mutate the descriptor as in `stripApply`, then
`validate_metadata_integrity` (utils.py lines 106-113). -/
def stripOne (ten : Tensor) (s : McoreShardedTensor) : Except PyError McoreShardedTensor :=
  let s' := stripApply ten s
  if validate_metadata_integrity s' then pure s' else throw (.shapeMismatch s'.key)

/-- The `for ten, sh_ten in zip(tens, sh_tens)` loop of
`_mcore_to_pyt_sharded_tensor`: pairs buffers with descriptors positionally;
`zip` stops at the shorter sequence, so descriptors beyond the buffer count
are left untouched and buffers beyond the descriptor count are ignored. -/
def zipStrip : List Tensor → List McoreShardedTensor → Except PyError (List McoreShardedTensor)
  | _, [] => pure []
  | [], ss => pure ss
  | t :: ts, s :: ss => do
      let s' ← stripOne t s
      let rest ← zipStrip ts ss
      pure (s' :: rest)

/-- Embedding of `_mcore_to_pyt_sharded_tensor` (utils.py lines 102-115):
strip prepend axes into the loaded buffers, then aggregate into a torch
sharded tensor. -/
def _mcore_to_pyt_sharded_tensor (tens : List Tensor) (sh_tens : List McoreShardedTensor) :
    Except PyError TorchShardedTensor := do
  let sh' ← zipStrip tens sh_tens
  pure (sharded_tensor_to_torch_sharded_tensor sh')

/-- A value of the loaded checkpoint dict: a nested dict, a list of loaded
buffers for one parameter, an opaque blob, or (after conversion) a torch
sharded tensor. -/
inductive CkptVal where
  | dict : List (String × CkptVal) → CkptVal
  | tensors : List Tensor → CkptVal
  | bytes : BytesBuf → CkptVal
  | pyt : TorchShardedTensor → CkptVal

/-- A value of the template (`sharded_state_dict`): a nested dict, a
`ShardedObject` placeholder, or a list of Dialect-A descriptors. -/
inductive TemplVal where
  | dict : List (String × TemplVal) → TemplVal
  | obj : TemplVal
  | tensors : List McoreShardedTensor → TemplVal

/-- Python `checkpoint[k]` where `checkpoint` may be any value: a string
lookup succeeds only on a dict holding the key. -/
def pyGet (v : CkptVal) (k : String) : Except PyError CkptVal :=
  match v with
  | .dict entries =>
      match alookup entries k with
      | some x => pure x
      | none => throw (.keyError k)
  | _ => throw .typeError

/-- Python `checkpoint[k] = x` where `checkpoint` may be any value. -/
def pySet (v : CkptVal) (k : String) (x : CkptVal) : Except PyError CkptVal :=
  match v with
  | .dict entries => pure (.dict (astore entries k x))
  | _ => throw .typeError

mutual

/-- Embedding of `_convert(checkpoint, sharded_state_dict, k)` of
`mcore_to_pyt_sharded_state_dict` (utils.py lines 117-126), dispatching on
the template value at `k` (the membership assert for `k` is discharged by
the caller, which looked the value up).  A dict template value walks the
template's sub-keys; a `ShardedObject` template value does nothing; a
descriptor-list template value replaces `checkpoint[k]` (raising `KeyError`
when absent) by the converted torch sharded tensor. -/
def convertVal (ckpt : CkptVal) (k : String) : TemplVal → Except PyError CkptVal
  | .dict sub => convertSub ckpt k sub
  | .obj => pure ckpt
  | .tensors sh => do
      let ck ← pyGet ckpt k
      match ck with
      | .tensors tens => do
          let t ← _mcore_to_pyt_sharded_tensor tens sh
          pySet ckpt k (.pyt t)
      | _ => throw .typeError

/-- The `for kk in sharded_state_dict[k]` loop of `_convert`: each iteration
evaluates `checkpoint[k]` (raising `KeyError` when absent) and recurses into
it with the template sub-value; the nested membership assert is trivially
true because `kk` is drawn from the template sub-dict itself. -/
def convertSub (ckpt : CkptVal) (k : String) :
    List (String × TemplVal) → Except PyError CkptVal
  | [] => pure ckpt
  | (kk, tv) :: rest => do
      let ck ← pyGet ckpt k
      let ck' ← convertVal ck kk tv
      let ckpt' ← pySet ckpt k ck'
      convertSub ckpt' k rest

end

/-- The `for k in checkpoint` loop of `mcore_to_pyt_sharded_state_dict`
(utils.py lines 128-129): iterates the checkpoint's keys, asserting each is
present in the template (the message names the key), then dispatches. -/
def convertTop (ssd : List (String × TemplVal)) :
    CkptVal → List String → Except PyError CkptVal
  | ckpt, [] => pure ckpt
  | ckpt, k :: ks => do
      match alookup ssd k with
      | none => throw (.assertMissing k)
      | some tv => do
          let ckpt' ← convertVal ckpt k tv
          convertTop ssd ckpt' ks

/-- Embedding of `mcore_to_pyt_sharded_state_dict` (utils.py lines 97-131):
converts the loaded checkpoint in place, driven by its own top-level keys,
and returns the mutated checkpoint. -/
def mcore_to_pyt_sharded_state_dict (checkpoint : List (String × CkptVal))
    (sharded_state_dict : List (String × TemplVal)) : Except PyError CkptVal :=
  convertTop sharded_state_dict (.dict checkpoint) (checkpoint.map Prod.fst)

/-- The placement assert of `_torch_to_mcore_sharded_tensor` (utils.py lines
150-152): every local shard's placement must equal the first shard's (the
`all` over an empty shard list is vacuously true, matching Python). -/
def placementsOk : List LocalShard → Bool
  | [] => true
  | s0 :: rest => (s0 :: rest).all (fun ls => ls.metadata.placement == s0.metadata.placement)

/-- The `axis_fragm` comprehension of `_torch_to_mcore_sharded_tensor`
(utils.py line 157): `global_shape[i] // shard_sizes[i]` for each axis of
the global shape, indexing the first shard's sizes (`IndexError` when the
size list is shorter, `ZeroDivisionError` on a zero extent). -/
def computeFragm (szs : List Nat) : List Nat → Nat → Except PyError (List Nat)
  | [], _ => pure []
  | g :: gs, i =>
      match szs[i]? with
      | none => throw .indexError
      | some sz =>
          if sz = 0 then throw .zeroDiv
          else do
            let rest ← computeFragm szs gs (i + 1)
            pure (g / sz :: rest)

/-- The inner `for j in range(len(axis))` loop of
`_torch_to_mcore_sharded_tensor` (utils.py lines 164-166): one
`(axis[j] + prepend_axis_num, shard_offsets[j] // shard_sizes[j], axis_fragm[j])`
triple per axis, indexing the shard's own offsets and sizes. -/
def rankOffsetsFor (p : Nat) (offs szs : List Nat) :
    List Nat → Nat → Except PyError (List (Nat × Nat × Nat))
  | [], _ => pure []
  | f :: fs, j =>
      match offs[j]?, szs[j]? with
      | some o, some sz =>
          if sz = 0 then throw .zeroDiv
          else do
            let rest ← rankOffsetsFor p offs szs fs (j + 1)
            pure ((j + p, o / sz, f) :: rest)
      | _, _ => throw .indexError

/-- The outer `for i in range(len(local_shards))` loop of
`_torch_to_mcore_sharded_tensor` (utils.py lines 160-176).  Note that the
source initialises `rank_offsets` once, before this loop, so the triples of
each shard are appended to those of all earlier shards (`acc`), and shard
`i`'s descriptor is built from the prepend offsets followed by the
accumulated triples of shards `0..i`. -/
def convertShardList (key : String) (pre : List (Nat × Nat × Nat)) (p : Nat) (allow : Bool)
    (fragm : List Nat) :
    List LocalShard → List (Nat × Nat × Nat) → Except PyError (List McoreShardedTensor)
  | [], _ => pure []
  | ls :: rest, acc => do
      let ros ← rankOffsetsFor p ls.metadata.shard_offsets ls.metadata.shard_sizes fragm 0
      let acc' := acc ++ ros
      let d := from_rank_offsets key ls.tensor (pre ++ acc') (.nat 0) p allow
      let ds ← convertShardList key pre p allow fragm rest acc'
      pure (d :: ds)

/-- Embedding of `_torch_to_mcore_sharded_tensor` (utils.py lines 136-178):
check the placement assert, compute the per-axis fragmentation from the
declared global size and the first shard's sizes (an empty shard list only
survives when the size is empty too, else `local_shards[0]` raises
`IndexError`), then convert each local shard.  The descriptor key is
`prefix + key`, the replica id `0`. -/
def _torch_to_mcore_sharded_tensor (key : String) (sh_ten : TorchShardedTensor)
    (pre : List (Nat × Nat × Nat)) (pfx : String) (allow : Bool) :
    Except PyError (List McoreShardedTensor) :=
  if placementsOk sh_ten.shards = false then throw .assertPlacement
  else
    match sh_ten.shards with
    | [] => if sh_ten.size.isEmpty then pure [] else throw .indexError
    | s0 :: rest => do
        let fragm ← computeFragm s0.metadata.shard_sizes sh_ten.size 0
        convertShardList (pfx ++ key) pre pre.length allow fragm (s0 :: rest) []

/-- Modelled from the spec: megatron's `_get_extra_state_offsets` helper
(library code, not under `src/`): derives the opaque object's shape and
offset tuples from the sharded offsets — the fragmentations as the shape and
the rank offsets as the offset — with `((1,), (0,))` when there are none. -/
def extraStateOffsets (sharded_offsets : List (Nat × Nat × Nat)) : List Nat × List Nat :=
  match sharded_offsets with
  | [] => ([1], [0])
  | l => (l.map (fun t => t.2.2), l.map (fun t => t.2.1))

/-- Embedding of `_torch_to_mcore_sharded_object` (utils.py lines 180-192).
The data-parallel rank (queried with context parallelism folded in from the
external process-group registry) is passed in as `dp`. -/
def _torch_to_mcore_sharded_object (dp : Nat) (key : String) (obj : BytesBuf)
    (sharded_offsets : List (Nat × Nat × Nat)) (pfx : String) : ShardedObject :=
  let so := extraStateOffsets sharded_offsets
  { key := pfx ++ key, data := obj, shape := so.1, offset := so.2,
    replica_id := .triple 0 0 dp }

/-- A value of the state dict on the save path: a nested dict, a torch
sharded tensor leaf, a byte-blob leaf, or (after conversion) a Dialect-A
descriptor list or sharded object. -/
inductive SaveVal where
  | dict : List (String × SaveVal) → SaveVal
  | pyt : TorchShardedTensor → SaveVal
  | bytes : BytesBuf → SaveVal
  | mcore : List McoreShardedTensor → SaveVal
  | obj : ShardedObject → SaveVal

mutual

/-- Embedding of `_convert(state_dict, k, sh_key, v, prepend_offsets,
prefix, allow_shape_mismatch)` of `pyt_to_mcore_state_dict` (utils.py lines
194-211): a dict value recurses over its items with the key appended to the
prefix; a torch-sharded-tensor leaf is replaced by its Dialect-A descriptor
list; a byte-blob leaf by a sharded object; anything else is left alone. -/
def saveConvert (dp : Nat) (state : List (String × SaveVal)) (k : String) (sh_key : String)
    (v : SaveVal) (pre : List (Nat × Nat × Nat)) (pfx : String) (allow : Bool) :
    Except PyError (List (String × SaveVal)) :=
  match v with
  | .dict entries => do
      let entries' ← saveConvertSub dp entries sh_key pre pfx allow entries
      pure (astore state k (.dict entries'))
  | .pyt t => do
      let ds ← _torch_to_mcore_sharded_tensor sh_key t pre pfx allow
      pure (astore state k (.mcore ds))
  | .bytes b =>
      pure (astore state k (.obj (_torch_to_mcore_sharded_object dp sh_key b pre pfx)))
  | .mcore _ => pure state
  | .obj _ => pure state

/-- The `for kk, vv in v.items()` loop of `_convert` on the save path:
converts each item of the sub-dict in order, threading the mutations, with
`prefix` extended by `kk + "."`. -/
def saveConvertSub (dp : Nat) (cur : List (String × SaveVal)) (sh_key : String)
    (pre : List (Nat × Nat × Nat)) (pfx : String) (allow : Bool) :
    List (String × SaveVal) → Except PyError (List (String × SaveVal))
  | [] => pure cur
  | (kk, vv) :: rest => do
      let cur' ← saveConvert dp cur kk sh_key vv pre (pfx ++ kk ++ ".") allow
      saveConvertSub dp cur' sh_key pre pfx allow rest

end

/-- Python `a.startswith(b)` over the characters of the strings. -/
def chStarts : List Char → List Char → Bool
  | _, [] => true
  | [], _ :: _ => false
  | a :: as, b :: bs => a == b && chStarts as bs

/-- Python `a.startswith(b)`. -/
def strStarts (a b : String) : Bool := chStarts a.data b.data

/-- Python `a.endswith(b)`: the reversed characters start with the reversed
suffix. -/
def strEnds (a b : String) : Bool := chStarts a.data.reverse b.data.reverse

/-- Python `s.split(sep)` for a one-character separator: empty components
are kept, and the empty string splits to one empty component. -/
def chSplit (sep : Char) : List Char → List (List Char)
  | [] => [[]]
  | c :: cs =>
      let r := chSplit sep cs
      if c == sep then [] :: r
      else
        match r with
        | [] => [[c]]
        | h :: t => (c :: h) :: t

/-- One decimal digit's value. -/
def digitVal? (c : Char) : Option Nat :=
  if '0' ≤ c ∧ c ≤ '9' then some (c.toNat - '0'.toNat) else none

/-- Accumulating decimal parse of a digit run. -/
def parseNatAux : List Char → Nat → Option Nat
  | [], acc => some acc
  | c :: cs, acc =>
      match digitVal? c with
      | some d => parseNatAux cs (acc * 10 + d)
      | none => none

/-- Python `int(s)` restricted to the non-negative decimal numerals the layer
convention produces: `none` on an empty or non-digit component (Python
raises `ValueError`). -/
def parseNat? : List Char → Option Nat
  | [] => none
  | l => parseNatAux l 0

/-- The layer-index parse `int(k.split('.')[3])` (utils.py line 216): the
fourth dot-component as a number, `none` on a missing or non-numeric
component (Python raises `ValueError`). -/
def layerIdx? (k : String) : Option Nat :=
  ((chSplit '.' k.data)[3]?).bind parseNat?

/-- The fixed layer-stack key convention `"module.decoder.layers."`. -/
def layersPre : String := "module.decoder.layers."

/-- The fixed vocabulary-table suffix `".word_embeddings.weight"`. -/
def embSuffix : String := ".word_embeddings.weight"

/-- The layer-index resolver scan of `pyt_to_mcore_state_dict` (utils.py
lines 213-216): fold over the keys, taking `max(acc, N + 1)` for every key
starting with `"module.decoder.layers."`, where `N` is the fourth
dot-component. -/
def numLayersScan : List String → Nat → Except PyError Nat
  | [], acc => pure acc
  | k :: ks, acc =>
      if strStarts k layersPre then
        match layerIdx? k with
        | some n => numLayersScan ks (max acc (n + 1))
        | none => throw .valueError
      else numLayersScan ks acc

/-- The layer-index strip of `pyt_to_mcore_state_dict` (utils.py lines
224-226): split on dots, pop component 3, re-join. -/
def stripLayer (k : String) : String :=
  let parts := chSplit '.' k.data
  String.mk (List.intercalate ['.'] (parts.take 3 ++ parts.drop 4))

/-- One iteration of the main loop of `pyt_to_mcore_state_dict` (utils.py
lines 219-229): `allow_shape_mismatch` is the unstripped key's
`endswith(".word_embeddings.weight")`; a key matching the layer convention
has its layer index popped and turned into the single prepend offset
`(0, layer, num_layers)`. -/
def topStep (dp nl : Nat) (state : List (String × SaveVal)) (k : String) (v : SaveVal)
    (pfx : String) : Except PyError (List (String × SaveVal)) :=
  if strStarts k layersPre then
    match layerIdx? k with
    | none => throw .valueError
    | some off =>
        saveConvert dp state k (stripLayer k) v [(0, off, nl)] pfx (strEnds k embSuffix)
  else saveConvert dp state k k v [] pfx (strEnds k embSuffix)

/-- The `for k, v in state_dict.items()` loop of `pyt_to_mcore_state_dict`,
iterating the original items and threading the in-place mutations. -/
def topLoop (dp nl : Nat) (pfx : String) :
    List (String × SaveVal) → List (String × SaveVal) →
    Except PyError (List (String × SaveVal))
  | state, [] => pure state
  | state, (k, v) :: rest => do
      let st' ← topStep dp nl state k v pfx
      topLoop dp nl pfx st' rest

/-- Embedding of `pyt_to_mcore_state_dict` (utils.py lines 134-231): resolve
the layer count (asserting it nonzero), then convert every top-level item.
The data-parallel rank `dp` stands for the external process-group query. -/
def pyt_to_mcore_state_dict (dp : Nat) (state : List (String × SaveVal)) (pfx : String) :
    Except PyError (List (String × SaveVal)) := do
  let nl ← numLayersScan (state.map Prod.fst) 0
  if nl = 0 then throw .assertNumLayers
  else topLoop dp nl pfx state state

mutual

/-- All Dialect-A tensor descriptors reachable in a save-path value. -/
def collectMVal : SaveVal → List McoreShardedTensor
  | .dict entries => collectMList entries
  | .mcore ds => ds
  | _ => []

/-- All Dialect-A tensor descriptors reachable in a save-path dict. -/
def collectMList : List (String × SaveVal) → List McoreShardedTensor
  | [] => []
  | (_, v) :: rest => collectMVal v ++ collectMList rest

end

mutual

/-- All sharded objects reachable in a save-path value. -/
def collectOVal : SaveVal → List ShardedObject
  | .dict entries => collectOList entries
  | .obj o => [o]
  | _ => []

/-- All sharded objects reachable in a save-path dict. -/
def collectOList : List (String × SaveVal) → List ShardedObject
  | [] => []
  | (_, v) :: rest => collectOVal v ++ collectOList rest

end

/-! ### Helper lemmas: monadic reduction -/

theorem exceptOkBind {ε α β : Type} (x : α) (f : α → Except ε β) :
    (Except.ok x >>= f : Except ε β) = f x := rfl

/-! ### Helper lemmas: the `from_rank_offsets` fold -/

theorem rankStep_len (shape : List Nat) (p : Nat) (st : RankState) (t : Nat × Nat × Nat) :
    (rankStep shape p st t).1.length = st.1.length ∧
    (rankStep shape p st t).2.1.length = st.2.1.length ∧
    (rankStep shape p st t).2.2.length = st.2.2.length := by
  unfold rankStep
  exact ⟨List.length_set .., ⟨List.length_set .., List.length_set ..⟩⟩

theorem foldl_rankStep_len (shape : List Nat) (p : Nat) :
    ∀ (ts : List (Nat × Nat × Nat)) (st : RankState),
    (ts.foldl (rankStep shape p) st).1.length = st.1.length ∧
    (ts.foldl (rankStep shape p) st).2.1.length = st.2.1.length ∧
    (ts.foldl (rankStep shape p) st).2.2.length = st.2.2.length
  | [], st => ⟨rfl, rfl, rfl⟩
  | t :: ts, st => by
    have h1 := rankStep_len shape p st t
    have h2 := foldl_rankStep_len shape p ts (rankStep shape p st t)
    simp only [List.foldl_cons]
    omega

theorem foldl_rankStep_get_ne (shape : List Nat) (p : Nat) :
    ∀ (ts : List (Nat × Nat × Nat)) (st : RankState) (a : Nat),
    (∀ t ∈ ts, t.1 ≠ a) →
    (ts.foldl (rankStep shape p) st).1[a]? = st.1[a]? ∧
    (ts.foldl (rankStep shape p) st).2.1[a]? = st.2.1[a]? ∧
    (ts.foldl (rankStep shape p) st).2.2[a]? = st.2.2[a]?
  | [], st, a, _ => ⟨rfl, rfl, rfl⟩
  | t :: ts, st, a, h => by
    have hne : t.1 ≠ a := h t (List.mem_cons_self t ts)
    have ih := foldl_rankStep_get_ne shape p ts (rankStep shape p st t) a
      (fun t' ht' => h t' (List.mem_cons_of_mem t ht'))
    simp only [List.foldl_cons]
    refine ⟨?_, ?_, ?_⟩
    · rw [ih.1]; exact List.getElem?_set_ne hne
    · rw [ih.2.1]; exact List.getElem?_set_ne hne
    · rw [ih.2.2]; exact List.getElem?_set_ne hne

theorem foldl_rankStep_window (shape : List Nat) (p : Nat) :
    ∀ (ts : List (Nat × Nat × Nat)) (st : RankState) (base : Nat),
    (∀ j (h : j < ts.length), ts[j].1 = base + j) →
    base + ts.length ≤ st.1.length →
    base + ts.length ≤ st.2.1.length →
    base + ts.length ≤ st.2.2.length →
    ∀ j (h : j < ts.length),
      (ts.foldl (rankStep shape p) st).1[base + j]? =
        some (ts[j].2.2 * (if base + j < p then 1 else shape.getD (base + j - p) 0)) ∧
      (ts.foldl (rankStep shape p) st).2.1[base + j]? =
        some (ts[j].2.1 * (if base + j < p then 1 else shape.getD (base + j - p) 0)) ∧
      (ts.foldl (rankStep shape p) st).2.2[base + j]? = some ts[j].2.2
  | [], _, _, _, _, _, _ => by intro j h; exact absurd h (Nat.not_lt_zero j)
  | t :: ts, st, base, haxes, hl1, hl2, hl3 => by
    intro j h
    have hcons : (t :: ts).length = ts.length + 1 := List.length_cons t ts
    rw [hcons] at hl1 hl2 hl3
    have hlen := rankStep_len shape p st t
    have htax : t.1 = base := by
      have h0 := haxes 0 (by rw [hcons]; omega)
      simpa using h0
    match j with
    | 0 =>
      have hrest : ∀ t' ∈ ts, t'.1 ≠ base + 0 := by
        intro t' ht'
        obtain ⟨i, hi, rfl⟩ := List.mem_iff_getElem.mp ht'
        have hx := haxes (i + 1) (by rw [hcons]; omega)
        simp only [List.getElem_cons_succ] at hx
        omega
      have hpr := foldl_rankStep_get_ne shape p ts (rankStep shape p st t) (base + 0) hrest
      simp only [List.foldl_cons]
      rw [hpr.1, hpr.2.1, hpr.2.2]
      unfold rankStep
      rw [htax]
      have hb1 : base < st.1.length := by omega
      have hb2 : base < st.2.1.length := by omega
      have hb3 : base < st.2.2.length := by omega
      simp only [Nat.add_zero, List.getElem_cons_zero]
      exact ⟨List.getElem?_set_self hb1, List.getElem?_set_self hb2,
        List.getElem?_set_self hb3⟩
    | j' + 1 =>
      have haxes' : ∀ i (hi : i < ts.length), ts[i].1 = (base + 1) + i := by
        intro i hi
        have hx := haxes (i + 1) (by rw [hcons]; omega)
        simp only [List.getElem_cons_succ] at hx
        omega
      have h' : j' < ts.length := by rw [hcons] at h; omega
      have ih := foldl_rankStep_window shape p ts (rankStep shape p st t) (base + 1) haxes'
        (by omega) (by omega) (by omega) j' h'
      simp only [List.foldl_cons]
      have harith : base + 1 + j' = base + (j' + 1) := by omega
      rw [harith] at ih
      simpa using ih

/-! ### Helper lemmas: fragmentation and rank-offset computation -/

theorem computeFragm_ok (szs : List Nat) :
    ∀ (gs : List Nat) (j0 : Nat),
    (∀ i, i < gs.length → j0 + i < szs.length ∧ szs.getD (j0 + i) 0 ≠ 0) →
    ∃ f, computeFragm szs gs j0 = .ok f ∧ f.length = gs.length ∧
      ∀ i, i < gs.length → f[i]? = some (gs.getD i 0 / szs.getD (j0 + i) 0)
  | [], j0, _ => ⟨[], rfl, rfl, fun i hi => absurd hi (Nat.not_lt_zero i)⟩
  | g :: gs, j0, hyp => by
    have h0 := hyp 0 (by simp)
    rw [Nat.add_zero] at h0
    have hsome : szs[j0]? = some (szs.getD j0 0) := by
      rw [List.getD_eq_getElem?_getD, List.getElem?_eq_getElem h0.1]
      rfl
    obtain ⟨f', hok, hlen, hget⟩ := computeFragm_ok szs gs (j0 + 1) (by
      intro i hi
      have := hyp (i + 1) (by simpa using Nat.succ_lt_succ hi)
      constructor
      · omega
      · have harith : j0 + (i + 1) = j0 + 1 + i := by omega
        rw [harith] at this
        exact this.2)
    refine ⟨g / szs.getD j0 0 :: f', ?_, by simpa using hlen, ?_⟩
    · unfold computeFragm
      rw [hsome]
      simp only [if_neg h0.2, hok]
      rfl
    · intro i hi
      match i with
      | 0 => simp
      | i + 1 =>
        have hi' : i < gs.length := by simpa using hi
        have := hget i hi'
        have harith : j0 + (i + 1) = j0 + 1 + i := by omega
        rw [harith]
        simpa using this

theorem rankOffsetsFor_ok (p : Nat) (offs szs : List Nat) :
    ∀ (fragm : List Nat) (j0 : Nat),
    (∀ i, i < fragm.length →
      j0 + i < offs.length ∧ j0 + i < szs.length ∧ szs.getD (j0 + i) 0 ≠ 0) →
    ∃ ros, rankOffsetsFor p offs szs fragm j0 = .ok ros ∧ ros.length = fragm.length ∧
      ∀ i, i < fragm.length →
        ros[i]? = some (j0 + i + p,
          offs.getD (j0 + i) 0 / szs.getD (j0 + i) 0, fragm.getD i 0)
  | [], j0, _ => ⟨[], rfl, rfl, fun i hi => absurd hi (Nat.not_lt_zero i)⟩
  | f :: fs, j0, hyp => by
    have h0 := hyp 0 (by simp)
    rw [Nat.add_zero] at h0
    have hsomeO : offs[j0]? = some (offs.getD j0 0) := by
      rw [List.getD_eq_getElem?_getD, List.getElem?_eq_getElem h0.1]
      rfl
    have hsomeS : szs[j0]? = some (szs.getD j0 0) := by
      rw [List.getD_eq_getElem?_getD, List.getElem?_eq_getElem h0.2.1]
      rfl
    obtain ⟨ros', hok, hlen, hget⟩ := rankOffsetsFor_ok p offs szs fs (j0 + 1) (by
      intro i hi
      have := hyp (i + 1) (by simpa using Nat.succ_lt_succ hi)
      have harith : j0 + (i + 1) = j0 + 1 + i := by omega
      rw [harith] at this
      exact ⟨by omega, by omega, this.2.2⟩)
    refine ⟨(j0 + p, offs.getD j0 0 / szs.getD j0 0, f) :: ros', ?_,
      by simpa using hlen, ?_⟩
    · unfold rankOffsetsFor
      rw [hsomeO, hsomeS]
      simp only [if_neg h0.2.2, hok]
      rfl
    · intro i hi
      match i with
      | 0 => simp
      | i + 1 =>
        have hi' : i < fs.length := by simpa using hi
        have := hget i hi'
        have harith : j0 + (i + 1) = j0 + 1 + i := by omega
        rw [harith]
        simpa using this

/-! ### Helper lemmas: descriptor construction -/

theorem from_rank_offsets_spec (key : String) (ten : Tensor)
    (pre acc ros : List (Nat × Nat × Nat)) (replica : ReplicaId) (allow : Bool)
    (hacc : ∀ t ∈ acc, pre.length ≤ t.1)
    (hroslen : ros.length ≤ ten.shape.length)
    (haxes : ∀ j (h : j < ros.length), ros[j].1 = pre.length + j) :
    (from_rank_offsets key ten (pre ++ (acc ++ ros)) replica pre.length allow).global_shape.length
        = pre.length + ten.shape.length ∧
    (from_rank_offsets key ten (pre ++ (acc ++ ros)) replica pre.length allow).global_offset.length
        = pre.length + ten.shape.length ∧
    (from_rank_offsets key ten (pre ++ (acc ++ ros)) replica
        pre.length allow).axis_fragmentations.length
        = pre.length + ten.shape.length ∧
    (∀ j (h : j < ros.length),
      (from_rank_offsets key ten (pre ++ (acc ++ ros)) replica pre.length
          allow).global_shape[pre.length + j]?
        = some (ros[j].2.2 * ten.shape.getD j 0) ∧
      (from_rank_offsets key ten (pre ++ (acc ++ ros)) replica pre.length
          allow).global_offset[pre.length + j]?
        = some (ros[j].2.1 * ten.shape.getD j 0) ∧
      (from_rank_offsets key ten (pre ++ (acc ++ ros)) replica pre.length
          allow).axis_fragmentations[pre.length + j]?
        = some ros[j].2.2) ∧
    (∀ a, a < pre.length →
      (from_rank_offsets key ten (pre ++ (acc ++ ros)) replica pre.length
          allow).global_shape[a]?
        = (pre.foldl (rankStep ten.shape pre.length)
            (initState ten.shape pre.length)).1[a]? ∧
      (from_rank_offsets key ten (pre ++ (acc ++ ros)) replica pre.length
          allow).global_offset[a]?
        = (pre.foldl (rankStep ten.shape pre.length)
            (initState ten.shape pre.length)).2.1[a]? ∧
      (from_rank_offsets key ten (pre ++ (acc ++ ros)) replica pre.length
          allow).axis_fragmentations[a]?
        = (pre.foldl (rankStep ten.shape pre.length)
            (initState ten.shape pre.length)).2.2[a]?) := by
  have hp : (from_rank_offsets key ten (pre ++ (acc ++ ros)) replica pre.length allow).global_shape
      = ((pre ++ (acc ++ ros)).foldl (rankStep ten.shape pre.length)
          (initState ten.shape pre.length)).1 := rfl
  have ho : (from_rank_offsets key ten (pre ++ (acc ++ ros)) replica pre.length allow).global_offset
      = ((pre ++ (acc ++ ros)).foldl (rankStep ten.shape pre.length)
          (initState ten.shape pre.length)).2.1 := rfl
  have hf : (from_rank_offsets key ten (pre ++ (acc ++ ros)) replica
        pre.length allow).axis_fragmentations
      = ((pre ++ (acc ++ ros)).foldl (rankStep ten.shape pre.length)
          (initState ten.shape pre.length)).2.2 := rfl
  have hinit1 : (initState ten.shape pre.length).1.length = pre.length + ten.shape.length := by
    simp [initState]
  have hinit2 : (initState ten.shape pre.length).2.1.length = pre.length + ten.shape.length := by
    simp [initState]
  have hinit3 : (initState ten.shape pre.length).2.2.length = pre.length + ten.shape.length := by
    simp [initState]
  have hflen := foldl_rankStep_len ten.shape pre.length (pre ++ (acc ++ ros))
    (initState ten.shape pre.length)
  refine ⟨by rw [hp]; omega, by rw [ho]; omega, by rw [hf]; omega, ?_, ?_⟩
  · -- window over `ros`
    intro j h
    have hsplit : pre ++ (acc ++ ros) = (pre ++ acc) ++ ros := (List.append_assoc pre acc ros).symm
    have hfold : (pre ++ (acc ++ ros)).foldl (rankStep ten.shape pre.length)
          (initState ten.shape pre.length)
        = ros.foldl (rankStep ten.shape pre.length)
            ((pre ++ acc).foldl (rankStep ten.shape pre.length)
              (initState ten.shape pre.length)) := by
      rw [hsplit, List.foldl_append]
    have hstlen := foldl_rankStep_len ten.shape pre.length (pre ++ acc)
      (initState ten.shape pre.length)
    have hw := foldl_rankStep_window ten.shape pre.length ros
      ((pre ++ acc).foldl (rankStep ten.shape pre.length) (initState ten.shape pre.length))
      pre.length haxes (by omega) (by omega) (by omega) j h
    have hnlt : ¬ (pre.length + j < pre.length) := by omega
    have hsub : pre.length + j - pre.length = j := by omega
    rw [hnlt |> if_neg, hsub] at hw
    rw [hp, ho, hf, hfold]
    exact hw
  · -- positions below the prepend count are those of the `pre` fold
    intro a ha
    have hfold : (pre ++ (acc ++ ros)).foldl (rankStep ten.shape pre.length)
          (initState ten.shape pre.length)
        = (acc ++ ros).foldl (rankStep ten.shape pre.length)
            (pre.foldl (rankStep ten.shape pre.length) (initState ten.shape pre.length)) := by
      rw [List.foldl_append]
    have hne : ∀ t ∈ acc ++ ros, t.1 ≠ a := by
      intro t ht
      rcases List.mem_append.mp ht with hta | htr
      · have := hacc t hta; omega
      · obtain ⟨i, hi, rfl⟩ := List.mem_iff_getElem.mp htr
        have := haxes i hi; omega
    have hg := foldl_rankStep_get_ne ten.shape pre.length (acc ++ ros)
      (pre.foldl (rankStep ten.shape pre.length) (initState ten.shape pre.length)) a hne
    rw [hp, ho, hf, hfold]
    exact hg

theorem convertShardList_ok (key : String) (pre : List (Nat × Nat × Nat)) (allow : Bool)
    (fragm : List Nat) :
    ∀ (shards : List LocalShard) (acc : List (Nat × Nat × Nat)),
    (∀ t ∈ acc, pre.length ≤ t.1) →
    (∀ sh ∈ shards,
      fragm.length ≤ sh.metadata.shard_offsets.length ∧
      fragm.length ≤ sh.metadata.shard_sizes.length ∧
      fragm.length ≤ sh.tensor.shape.length ∧
      (∀ i, i < fragm.length → sh.metadata.shard_sizes.getD i 0 ≠ 0)) →
    ∃ ds, convertShardList key pre pre.length allow fragm shards acc = .ok ds ∧
      ds.length = shards.length ∧
      ∀ i (h : i < shards.length),
        ∃ d, ds[i]? = some d ∧
        d.key = key ∧ d.data = shards[i].tensor ∧ d.replica_id = .nat 0 ∧
        d.prepend_axis_num = pre.length ∧ d.allow_shape_mismatch = allow ∧
        d.global_shape.length = pre.length + shards[i].tensor.shape.length ∧
        d.global_offset.length = pre.length + shards[i].tensor.shape.length ∧
        d.axis_fragmentations.length = pre.length + shards[i].tensor.shape.length ∧
        (∀ j, j < fragm.length →
          d.global_shape[pre.length + j]?
            = some (fragm.getD j 0 * shards[i].tensor.shape.getD j 0) ∧
          d.global_offset[pre.length + j]?
            = some ((shards[i].metadata.shard_offsets.getD j 0 /
                     shards[i].metadata.shard_sizes.getD j 0) *
                    shards[i].tensor.shape.getD j 0) ∧
          d.axis_fragmentations[pre.length + j]? = some (fragm.getD j 0)) ∧
        (∀ a, a < pre.length →
          d.global_shape[a]?
            = (pre.foldl (rankStep shards[i].tensor.shape pre.length)
                (initState shards[i].tensor.shape pre.length)).1[a]? ∧
          d.global_offset[a]?
            = (pre.foldl (rankStep shards[i].tensor.shape pre.length)
                (initState shards[i].tensor.shape pre.length)).2.1[a]? ∧
          d.axis_fragmentations[a]?
            = (pre.foldl (rankStep shards[i].tensor.shape pre.length)
                (initState shards[i].tensor.shape pre.length)).2.2[a]?)
  | [], acc, _, _ => ⟨[], rfl, rfl, fun i hi => absurd hi (Nat.not_lt_zero i)⟩
  | sh :: shards, acc, hacc, hsh => by
    have hhead := hsh sh (List.mem_cons_self sh shards)
    obtain ⟨ros, hrosok, hroslen, hrosget⟩ :=
      rankOffsetsFor_ok pre.length sh.metadata.shard_offsets sh.metadata.shard_sizes fragm 0
        (by
          intro i hi
          have := hhead.2.2.2 i hi
          refine ⟨by omega, by omega, ?_⟩
          simpa using this)
    have hrosval : ∀ j (h : j < ros.length),
        ros[j] = (j + pre.length,
          sh.metadata.shard_offsets.getD j 0 / sh.metadata.shard_sizes.getD j 0,
          fragm.getD j 0) := by
      intro j hj
      have := hrosget j (by omega)
      rw [List.getElem?_eq_getElem hj] at this
      simpa using this
    have haxes : ∀ j (h : j < ros.length), ros[j].1 = pre.length + j := by
      intro j hj
      rw [hrosval j hj]
      omega
    have hrosmem : ∀ t ∈ ros, pre.length ≤ t.1 := by
      intro t ht
      obtain ⟨i, hi, rfl⟩ := List.mem_iff_getElem.mp ht
      rw [haxes i hi]
      omega
    obtain ⟨ds', hdsok, hdslen, hdsget⟩ := convertShardList_ok key pre allow fragm shards
      (acc ++ ros)
      (by
        intro t ht
        rcases List.mem_append.mp ht with h1 | h2
        · exact hacc t h1
        · exact hrosmem t h2)
      (fun s hs => hsh s (List.mem_cons_of_mem sh hs))
    have hspec := from_rank_offsets_spec key sh.tensor pre acc ros (.nat 0) allow hacc
      (by omega) haxes
    refine ⟨from_rank_offsets key sh.tensor (pre ++ (acc ++ ros)) (.nat 0) pre.length allow
        :: ds', ?_, by simpa using hdslen, ?_⟩
    · unfold convertShardList
      rw [hrosok]
      simp only [exceptOkBind, hdsok]
      rfl
    · intro i hi
      match i with
      | 0 =>
        refine ⟨from_rank_offsets key sh.tensor (pre ++ (acc ++ ros)) (.nat 0) pre.length allow,
          by simp, rfl, rfl, rfl, rfl, rfl, hspec.1, hspec.2.1, hspec.2.2.1, ?_, ?_⟩
        · intro j hj
          have hw := hspec.2.2.2.1 j (by omega)
          have hv := hrosval j (by omega)
          rw [hv] at hw
          simpa using hw
        · intro a ha
          exact hspec.2.2.2.2 a ha
      | i + 1 =>
        have hi' : i < shards.length := by simpa using hi
        have := hdsget i hi'
        simpa using this

theorem torch_to_mcore_spec (key pfx : String) (X : TorchShardedTensor)
    (pre : List (Nat × Nat × Nat)) (allow : Bool) (s0 : LocalShard) (rest : List LocalShard)
    (hsh : X.shards = s0 :: rest)
    (hplace : placementsOk X.shards = true)
    (hall : ∀ sh ∈ X.shards,
      X.size.length ≤ sh.metadata.shard_offsets.length ∧
      X.size.length ≤ sh.metadata.shard_sizes.length ∧
      X.size.length ≤ sh.tensor.shape.length ∧
      (∀ i, i < X.size.length → sh.metadata.shard_sizes.getD i 0 ≠ 0)) :
    ∃ ds, _torch_to_mcore_sharded_tensor key X pre pfx allow = .ok ds ∧
      ds.length = X.shards.length ∧
      ∀ i (h : i < X.shards.length), ∃ d, ds[i]? = some d ∧
        d.key = pfx ++ key ∧ d.data = X.shards[i].tensor ∧ d.replica_id = .nat 0 ∧
        d.prepend_axis_num = pre.length ∧ d.allow_shape_mismatch = allow ∧
        d.global_shape.length = pre.length + X.shards[i].tensor.shape.length ∧
        d.global_offset.length = pre.length + X.shards[i].tensor.shape.length ∧
        d.axis_fragmentations.length = pre.length + X.shards[i].tensor.shape.length ∧
        (∀ j, j < X.size.length →
          d.global_shape[pre.length + j]?
            = some ((X.size.getD j 0 / s0.metadata.shard_sizes.getD j 0) *
                    X.shards[i].tensor.shape.getD j 0) ∧
          d.global_offset[pre.length + j]?
            = some ((X.shards[i].metadata.shard_offsets.getD j 0 /
                     X.shards[i].metadata.shard_sizes.getD j 0) *
                    X.shards[i].tensor.shape.getD j 0) ∧
          d.axis_fragmentations[pre.length + j]?
            = some (X.size.getD j 0 / s0.metadata.shard_sizes.getD j 0)) ∧
        (∀ a, a < pre.length →
          d.global_shape[a]?
            = (pre.foldl (rankStep X.shards[i].tensor.shape pre.length)
                (initState X.shards[i].tensor.shape pre.length)).1[a]? ∧
          d.global_offset[a]?
            = (pre.foldl (rankStep X.shards[i].tensor.shape pre.length)
                (initState X.shards[i].tensor.shape pre.length)).2.1[a]? ∧
          d.axis_fragmentations[a]?
            = (pre.foldl (rankStep X.shards[i].tensor.shape pre.length)
                (initState X.shards[i].tensor.shape pre.length)).2.2[a]?) := by
  have hmem0 : s0 ∈ X.shards := by rw [hsh]; exact List.mem_cons_self s0 rest
  have h0 := hall s0 hmem0
  obtain ⟨fragm, hfok, hflen, hfget⟩ :=
    computeFragm_ok s0.metadata.shard_sizes X.size 0
      (fun i hi => ⟨by have := h0.2.1; omega, by simpa using h0.2.2.2 i hi⟩)
  have hfd : ∀ j, j < X.size.length →
      fragm.getD j 0 = X.size.getD j 0 / s0.metadata.shard_sizes.getD j 0 := by
    intro j hj
    have := hfget j hj
    rw [List.getD_eq_getElem?_getD, this]
    simp
  obtain ⟨ds, hdok, hdlen, hdget⟩ := convertShardList_ok (pfx ++ key) pre allow fragm
    X.shards [] (by intro t ht; exact absurd ht (List.not_mem_nil t))
    (by
      intro sh hs
      have := hall sh hs
      exact ⟨by omega, by omega, by omega, fun i hi => this.2.2.2 i (by omega)⟩)
  refine ⟨ds, ?_, by rw [hdlen], ?_⟩
  · unfold _torch_to_mcore_sharded_tensor
    rw [hsh] at hplace hdok ⊢
    simp only [hplace, Bool.true_eq_false, if_false, hfok, exceptOkBind]
    exact hdok
  · intro i hi
    obtain ⟨d, hd, hk, hdata, hrep, hpn, ham, hl1, hl2, hl3, hwin, hlow⟩ := hdget i hi
    refine ⟨d, hd, hk, hdata, hrep, hpn, ham, hl1, hl2, hl3, ?_, hlow⟩
    intro j hj
    have hw := hwin j (by omega)
    rw [hfd j hj] at hw
    exact hw

/-! ### Helper lemmas: the load-direction strip loop -/

theorem validate_true_of (s : McoreShardedTensor)
    (hp : s.prepend_axis_num = 0)
    (hl1 : s.global_shape.length = s.data.shape.length)
    (hl2 : s.global_offset.length = s.data.shape.length)
    (hl3 : s.axis_fragmentations.length = s.data.shape.length)
    (hax : ∀ i, i < s.data.shape.length →
      s.global_shape.getD i 0 = s.axis_fragmentations.getD i 0 * s.data.shape.getD i 0 ∧
      s.data.shape.getD i 0 ∣ s.global_offset.getD i 0) :
    validate_metadata_integrity s = true := by
  unfold validate_metadata_integrity
  rw [hp]
  simp only [List.replicate_zero, List.nil_append, Bool.and_eq_true, Bool.or_eq_true,
    beq_iff_eq, List.all_eq_true, List.mem_range]
  refine ⟨⟨⟨by omega, by omega⟩, hl1⟩, ?_⟩
  intro i hi
  obtain ⟨hshape, hdvd⟩ := hax i hi
  obtain ⟨c, hc⟩ := hdvd
  refine ⟨Or.inr (by rw [hshape]), ?_⟩
  rw [hc, Nat.mul_mod_right]

theorem zipStrip_ok :
    ∀ (ts : List Tensor) (ss : List McoreShardedTensor),
    ts.length ≤ ss.length →
    (∀ i (h : i < ts.length) (h' : i < ss.length),
      validate_metadata_integrity (stripApply ts[i] ss[i]) = true) →
    ∃ out, zipStrip ts ss = .ok out ∧ out.length = ss.length ∧
      (∀ i (h : i < ts.length) (h' : i < ss.length),
        out[i]? = some (stripApply ts[i] ss[i])) ∧
      (∀ i, ts.length ≤ i → out[i]? = ss[i]?)
  | [], [], _, _ => ⟨[], rfl, rfl, fun i hi => absurd hi (Nat.not_lt_zero i),
      fun i _ => rfl⟩
  | [], s :: ss, _, _ => ⟨s :: ss, rfl, rfl, fun i hi => absurd hi (Nat.not_lt_zero i),
      fun i _ => rfl⟩
  | t :: ts, s :: ss, hle, hval => by
    have h0 := hval 0 (by simp) (by simp)
    simp only [List.getElem_cons_zero] at h0
    obtain ⟨out', hok, hlen, hsome, hrest⟩ := zipStrip_ok ts ss (by
        simp only [List.length_cons] at hle
        omega)
      (by
        intro i hi hi'
        have := hval (i + 1) (by simpa using Nat.succ_lt_succ hi)
          (by simpa using Nat.succ_lt_succ hi')
        simpa using this)
    refine ⟨stripApply t s :: out', ?_, by simpa using hlen, ?_, ?_⟩
    · unfold zipStrip stripOne
      rw [if_pos h0]
      simp only [exceptOkBind, hok]
      rfl
    · intro i hi hi'
      match i with
      | 0 => simp
      | i + 1 =>
        have := hsome i (by simpa using hi) (by simpa using hi')
        simpa using this
    · intro i hge
      match i with
      | 0 => simp at hge
      | i + 1 =>
        have := hrest i (by simpa using hge)
        simpa using this

theorem getElem_some_getD (l : List Nat) (n : Nat) (h : n < l.length) :
    l[n]? = some (l.getD n 0) := by
  rw [List.getD_eq_getElem?_getD, List.getElem?_eq_getElem h]
  rfl

/-! ### C1: the geometry round trip -/

/-- C1: a tensor shard set produced by `_torch_to_mcore_sharded_tensor` and
passed back through `_mcore_to_pyt_sharded_tensor` (with each descriptor's
own buffer as the loaded buffer) yields a Dialect-B tensor whose global
shape and per-shard offsets and extents equal those of the original, for any
well-formed Dialect-B input: a nonempty shard list of identical placements,
shard buffers whose shapes are the declared shard sizes, and per-axis
extents that are positive, divide the shard offsets, and (for the first
shard, whose sizes fix the fragmentation) divide the declared global size;
the prepend offset triples may be arbitrary. -/
theorem c1_roundtrip (key pfx : String) (X : TorchShardedTensor)
    (pre : List (Nat × Nat × Nat)) (allow : Bool) (s0 : LocalShard) (rest : List LocalShard)
    (hsh : X.shards = s0 :: rest)
    (hplace : placementsOk X.shards = true)
    (hwf : ∀ sh ∈ X.shards,
      sh.tensor.shape = sh.metadata.shard_sizes ∧
      sh.metadata.shard_sizes.length = X.size.length ∧
      sh.metadata.shard_offsets.length = X.size.length ∧
      (∀ i, i < X.size.length →
        0 < sh.metadata.shard_sizes.getD i 0 ∧
        sh.metadata.shard_sizes.getD i 0 ∣ sh.metadata.shard_offsets.getD i 0))
    (hdvd : ∀ i, i < X.size.length →
      s0.metadata.shard_sizes.getD i 0 ∣ X.size.getD i 0) :
    ∃ ds Y,
      _torch_to_mcore_sharded_tensor key X pre pfx allow = .ok ds ∧
      _mcore_to_pyt_sharded_tensor (ds.map (fun d => d.data)) ds = .ok Y ∧
      Y.size = X.size ∧
      Y.shards.length = X.shards.length ∧
      (∀ i (h : i < X.shards.length), ∃ sY, Y.shards[i]? = some sY ∧
        sY.metadata.shard_offsets = X.shards[i].metadata.shard_offsets ∧
        sY.metadata.shard_sizes = X.shards[i].metadata.shard_sizes) := by
  obtain ⟨ds, hds, hdslen, hdsget⟩ := torch_to_mcore_spec key pfx X pre allow s0 rest hsh hplace
    (by
      intro sh hs
      obtain ⟨hshp, hszl, hofl, hax⟩ := hwf sh hs
      have hshl : sh.tensor.shape.length = X.size.length := by rw [hshp, hszl]
      exact ⟨by omega, by omega, by omega, fun i hi => by
        have := (hax i hi).1
        omega⟩)
  -- facts about each descriptor, phrased for the strip loop
  have hshapelen : ∀ i (h : i < X.shards.length),
      X.shards[i].tensor.shape.length = X.size.length := by
    intro i h
    have hm : X.shards[i] ∈ X.shards := List.getElem_mem h
    obtain ⟨hshp, hszl, _, _⟩ := hwf X.shards[i] hm
    rw [hshp, hszl]
  have hval : ∀ i (h : i < (ds.map (fun d => d.data)).length) (h' : i < ds.length),
      validate_metadata_integrity
        (stripApply (ds.map (fun d => d.data))[i] ds[i]) = true := by
    intro i h h'
    have hi : i < X.shards.length := by
      rw [List.length_map] at h
      omega
    obtain ⟨d, hd?, hk, hdata, hrep, hpn, ham, hl1, hl2, hl3, hwin, hlow⟩ := hdsget i hi
    have hdeq : ds[i] = d := by
      rw [List.getElem?_eq_getElem h'] at hd?
      exact Option.some.inj hd?
    have hmapi : (ds.map (fun d => d.data))[i] = d.data := by
      rw [List.getElem_map, hdeq]
    rw [hmapi, hdeq]
    have hm : X.shards[i] ∈ X.shards := List.getElem_mem hi
    obtain ⟨hshp, hszl, hofl, hax⟩ := hwf X.shards[i] hm
    have hshl : d.data.shape.length = X.size.length := by
      rw [hdata, hshp, hszl]
    apply validate_true_of
    · rfl
    · show (d.global_shape.drop d.prepend_axis_num).length = d.data.shape.length
      rw [List.length_drop, hpn, hl1, hdata]
      omega
    · show (d.global_offset.drop d.prepend_axis_num).length = d.data.shape.length
      rw [List.length_drop, hpn, hl2, hdata]
      omega
    · show (d.axis_fragmentations.drop d.prepend_axis_num).length = d.data.shape.length
      rw [List.length_drop, hpn, hl3, hdata]
      omega
    · intro j hj
      have hj2 : j < d.data.shape.length := hj
      have hjS : j < X.size.length := by omega
      obtain ⟨hwg, hwo, hwf'⟩ := hwin j hjS
      have hg : (d.global_shape.drop d.prepend_axis_num).getD j 0
          = (X.size.getD j 0 / s0.metadata.shard_sizes.getD j 0) *
            X.shards[i].tensor.shape.getD j 0 := by
        rw [List.getD_eq_getElem?_getD, List.getElem?_drop, hpn, hwg]
        rfl
      have ho : (d.global_offset.drop d.prepend_axis_num).getD j 0
          = (X.shards[i].metadata.shard_offsets.getD j 0 /
             X.shards[i].metadata.shard_sizes.getD j 0) *
            X.shards[i].tensor.shape.getD j 0 := by
        rw [List.getD_eq_getElem?_getD, List.getElem?_drop, hpn, hwo]
        rfl
      have hf : (d.axis_fragmentations.drop d.prepend_axis_num).getD j 0
          = X.size.getD j 0 / s0.metadata.shard_sizes.getD j 0 := by
        rw [List.getD_eq_getElem?_getD, List.getElem?_drop, hpn, hwf']
        rfl
      constructor
      · show (d.global_shape.drop d.prepend_axis_num).getD j 0
          = (d.axis_fragmentations.drop d.prepend_axis_num).getD j 0 * d.data.shape.getD j 0
        rw [hg, hf, hdata]
      · show d.data.shape.getD j 0 ∣ (d.global_offset.drop d.prepend_axis_num).getD j 0
        rw [ho, hdata]
        exact Dvd.intro_left _ rfl
  obtain ⟨out, hout, houtlen, houtget, _⟩ := zipStrip_ok (ds.map (fun d => d.data)) ds
    (by rw [List.length_map]) hval
  have hmaplen : (ds.map (fun d => d.data)).length = ds.length := List.length_map ds _
  refine ⟨ds, sharded_tensor_to_torch_sharded_tensor out, hds, ?_, ?_, ?_, ?_⟩
  · unfold _mcore_to_pyt_sharded_tensor
    rw [hout]
    rfl
  · -- global size round trip
    have hlen0 : 0 < ds.length := by
      rw [hdslen, hsh]
      simp
    obtain ⟨d0, hd0?, hk0, hdata0, _, hpn0, _, hl10, _, _, hwin0, _⟩ :=
      hdsget 0 (by rw [hsh]; simp)
    have hd0eq : ds[0] = d0 := by
      rw [List.getElem?_eq_getElem hlen0] at hd0?
      exact Option.some.inj hd0?
    have hout0 : out[0]? = some (stripApply d0.data d0) := by
      have := houtget 0 (by omega) hlen0
      rw [List.getElem_map, hd0eq] at this
      exact this
    have houtpos : 0 < out.length := by omega
    obtain ⟨o0, orest, houtcons⟩ : ∃ o0 orest, out = o0 :: orest := by
      match out, houtpos with
      | o :: os, _ => exact ⟨o, os, rfl⟩
    have ho0 : o0 = stripApply d0.data d0 := by
      rw [houtcons] at hout0
      simpa using hout0
    have hYsize : (sharded_tensor_to_torch_sharded_tensor out).size = o0.global_shape := by
      rw [houtcons]
      rfl
    rw [hYsize, ho0]
    have hsh0 : X.shards[0] = s0 := by
      have : X.shards[0]? = some s0 := by rw [hsh]; simp
      rw [List.getElem?_eq_getElem (by rw [hsh]; simp)] at this
      exact Option.some.inj this
    obtain ⟨hshp0, hszl0, _, hax0⟩ := hwf s0 (by rw [hsh]; exact List.mem_cons_self s0 rest)
    apply List.ext_getElem?
    intro n
    by_cases hn : n < X.size.length
    · have hw := (hwin0 n hn).1
      show (d0.global_shape.drop d0.prepend_axis_num)[n]? = X.size[n]?
      rw [List.getElem?_drop, hpn0, hw, hsh0, hshp0, getElem_some_getD X.size n hn,
        Nat.div_mul_cancel (hdvd n hn)]
    · have hlen' : (d0.global_shape.drop d0.prepend_axis_num).length = X.size.length := by
        have hs := hshapelen 0 (by rw [hsh]; simp)
        rw [List.length_drop, hpn0, hl10]
        omega
      show (d0.global_shape.drop d0.prepend_axis_num)[n]? = X.size[n]?
      rw [List.getElem?_eq_none (by omega), List.getElem?_eq_none (by omega)]
  · show (out.map _).length = X.shards.length
    rw [List.length_map]
    omega
  · intro i hi
    obtain ⟨d, hd?, hk, hdata, hrep, hpn, ham, hl1, hl2, hl3, hwin, hlow⟩ := hdsget i hi
    have hi' : i < ds.length := by omega
    have hdeq : ds[i] = d := by
      rw [List.getElem?_eq_getElem hi'] at hd?
      exact Option.some.inj hd?
    have houti : out[i]? = some (stripApply d.data d) := by
      have := houtget i (by omega) hi'
      rw [List.getElem_map, hdeq] at this
      exact this
    have hm : X.shards[i] ∈ X.shards := List.getElem_mem hi
    obtain ⟨hshp, hszl, hofl, hax⟩ := hwf X.shards[i] hm
    refine ⟨⟨(stripApply d.data d).data,
      ⟨(stripApply d.data d).global_offset, (stripApply d.data d).data.shape, 0⟩⟩, ?_, ?_, ?_⟩
    · show (out.map _)[i]? = _
      rw [List.getElem?_map, houti]
      rfl
    · show (stripApply d.data d).global_offset = X.shards[i].metadata.shard_offsets
      apply List.ext_getElem?
      intro n
      by_cases hn : n < X.size.length
      · show (d.global_offset.drop d.prepend_axis_num)[n]? = _
        rw [List.getElem?_drop, hpn, (hwin n hn).2.1, hshp,
          getElem_some_getD X.shards[i].metadata.shard_offsets n (by omega),
          Nat.div_mul_cancel ((hax n hn).2)]
      · show (d.global_offset.drop d.prepend_axis_num)[n]? = _
        have hlen' : (d.global_offset.drop d.prepend_axis_num).length = X.size.length := by
          have hs := hshapelen i hi
          rw [List.length_drop, hpn, hl2]
          omega
        rw [List.getElem?_eq_none (by omega), List.getElem?_eq_none (by omega)]
    · show (stripApply d.data d).data.shape = X.shards[i].metadata.shard_sizes
      show d.data.shape = _
      rw [hdata, hshp]

/-- Witness for C1: the round trip at a concrete single-shard tensor of
global shape `[4]` with local shard extent `[2]` at offset `[2]`. -/
theorem c1_roundtrip_witness :
    ∃ ds Y,
      _torch_to_mcore_sharded_tensor "k"
          ⟨[4], [⟨⟨0, [2]⟩, ⟨[2], [2], 0⟩⟩]⟩ [] "" false = .ok ds ∧
      _mcore_to_pyt_sharded_tensor (ds.map (fun d => d.data)) ds = .ok Y ∧
      Y.size = (⟨[4], [⟨⟨0, [2]⟩, ⟨[2], [2], 0⟩⟩]⟩ : TorchShardedTensor).size ∧
      Y.shards.length
        = (⟨[4], [⟨⟨0, [2]⟩, ⟨[2], [2], 0⟩⟩]⟩ : TorchShardedTensor).shards.length ∧
      (∀ i (h : i < (⟨[4], [⟨⟨0, [2]⟩, ⟨[2], [2], 0⟩⟩]⟩ :
            TorchShardedTensor).shards.length),
        ∃ sY, Y.shards[i]? = some sY ∧
          sY.metadata.shard_offsets
            = (⟨[4], [⟨⟨0, [2]⟩, ⟨[2], [2], 0⟩⟩]⟩ :
                TorchShardedTensor).shards[i].metadata.shard_offsets ∧
          sY.metadata.shard_sizes
            = (⟨[4], [⟨⟨0, [2]⟩, ⟨[2], [2], 0⟩⟩]⟩ :
                TorchShardedTensor).shards[i].metadata.shard_sizes) :=
  c1_roundtrip "k" "" ⟨[4], [⟨⟨0, [2]⟩, ⟨[2], [2], 0⟩⟩]⟩ [] false
    ⟨⟨0, [2]⟩, ⟨[2], [2], 0⟩⟩ [] rfl (by decide) (by decide) (by decide)

/-! ### C3: the save-direction geometry computation -/

/-- C3: for a Dialect-B tensor with uniform shard extents,
`_torch_to_mcore_sharded_tensor` produces one descriptor per local shard
carrying `prepend_axis_num = pre.length`; on each computed axis the
fragmentation is the declared global extent divided (with truncation toward
zero, `Nat` floor division) by the local shard extent, the global extent is
that fragmentation times the local extent — hence the declared total size
exactly when the division is even — and the global offset is the per-axis
rank offset `shard_offset / shard_extent` times the local extent; each
prepend offset `(a, r, f)` occupies one synthetic leading axis ahead of the
computed axes with global extent `f * 1` and global offset `r * 1`. -/
theorem c3_toDialectA_computation (key pfx : String) (X : TorchShardedTensor)
    (pre : List (Nat × Nat × Nat)) (allow : Bool) (s0 : LocalShard) (rest : List LocalShard)
    (hsh : X.shards = s0 :: rest)
    (hplace : placementsOk X.shards = true)
    (hpreSeq : ∀ j (h : j < pre.length), pre[j].1 = j)
    (hsz : s0.metadata.shard_sizes.length = X.size.length)
    (hpos : ∀ i, i < X.size.length → 0 < s0.metadata.shard_sizes.getD i 0)
    (huni : ∀ sh ∈ X.shards,
      sh.tensor.shape = s0.metadata.shard_sizes ∧
      sh.metadata.shard_sizes = s0.metadata.shard_sizes ∧
      X.size.length ≤ sh.metadata.shard_offsets.length) :
    ∃ ds, _torch_to_mcore_sharded_tensor key X pre pfx allow = .ok ds ∧
      ds.length = X.shards.length ∧
      ∀ i (h : i < X.shards.length), ∃ d, ds[i]? = some d ∧
        d.prepend_axis_num = pre.length ∧
        (∀ j, j < X.size.length →
          d.axis_fragmentations[pre.length + j]?
            = some (X.size.getD j 0 / s0.metadata.shard_sizes.getD j 0) ∧
          d.global_shape[pre.length + j]?
            = some ((X.size.getD j 0 / s0.metadata.shard_sizes.getD j 0) *
                    s0.metadata.shard_sizes.getD j 0) ∧
          (s0.metadata.shard_sizes.getD j 0 ∣ X.size.getD j 0 →
            d.global_shape[pre.length + j]? = some (X.size.getD j 0)) ∧
          d.global_offset[pre.length + j]?
            = some ((X.shards[i].metadata.shard_offsets.getD j 0 /
                     s0.metadata.shard_sizes.getD j 0) *
                    s0.metadata.shard_sizes.getD j 0)) ∧
        (∀ a (ha : a < pre.length),
          d.global_shape[a]? = some (pre[a].2.2 * 1) ∧
          d.global_offset[a]? = some (pre[a].2.1 * 1) ∧
          d.axis_fragmentations[a]? = some pre[a].2.2) := by
  obtain ⟨ds, hds, hdslen, hdsget⟩ := torch_to_mcore_spec key pfx X pre allow s0 rest hsh hplace
    (by
      intro sh hs
      obtain ⟨hshp, hszeq, hofl⟩ := huni sh hs
      refine ⟨by omega, by rw [hszeq]; omega, by rw [hshp]; omega, ?_⟩
      intro i hi
      rw [hszeq]
      have := hpos i hi
      omega)
  refine ⟨ds, hds, hdslen, ?_⟩
  intro i hi
  obtain ⟨d, hd?, hk, hdata, hrep, hpn, ham, hl1, hl2, hl3, hwin, hlow⟩ := hdsget i hi
  have hm : X.shards[i] ∈ X.shards := List.getElem_mem hi
  obtain ⟨hshp, hszeq, hofl⟩ := huni X.shards[i] hm
  refine ⟨d, hd?, hpn, ?_, ?_⟩
  · intro j hj
    obtain ⟨hwg, hwo, hwf'⟩ := hwin j hj
    rw [hshp] at hwg hwo
    rw [hszeq] at hwo
    refine ⟨hwf', hwg, ?_, hwo⟩
    intro hdvd
    rw [hwg, Nat.div_mul_cancel hdvd]
  · intro a ha
    obtain ⟨hlg, hlo, hlf⟩ := hlow a ha
    have hinitlen1 : (initState X.shards[i].tensor.shape pre.length).1.length
        = pre.length + X.shards[i].tensor.shape.length := by simp [initState]
    have hinitlen2 : (initState X.shards[i].tensor.shape pre.length).2.1.length
        = pre.length + X.shards[i].tensor.shape.length := by simp [initState]
    have hinitlen3 : (initState X.shards[i].tensor.shape pre.length).2.2.length
        = pre.length + X.shards[i].tensor.shape.length := by simp [initState]
    have hw := foldl_rankStep_window X.shards[i].tensor.shape pre.length pre
      (initState X.shards[i].tensor.shape pre.length) 0
      (by intro j hj; rw [Nat.zero_add]; exact hpreSeq j hj)
      (by omega) (by omega) (by omega) a ha
    rw [Nat.zero_add, if_pos ha] at hw
    rw [hlg, hlo, hlf]
    exact ⟨hw.1, hw.2.1, hw.2.2⟩

/-- Witness for C3 at the spec's example: a single prepend offset `(0, 2, 5)`
(rank 2 of 5 along the synthetic leading axis) on a single-shard tensor of
global shape `[4]` with local extent `[2]` at offset `[2]`, giving
`global_shape[0] = 5 * 1` and `global_offset[0] = 2 * 1`. -/
theorem c3_toDialectA_computation_witness :
    ∃ ds, _torch_to_mcore_sharded_tensor "k"
        ⟨[4], [⟨⟨0, [2]⟩, ⟨[2], [2], 0⟩⟩]⟩ [(0, 2, 5)] "" false = .ok ds ∧
      ds.length = 1 ∧
      ∀ i, i < 1 → ∃ d, ds[i]? = some d ∧
        d.prepend_axis_num = 1 ∧
        (∀ j, j < 1 →
          d.axis_fragmentations[1 + j]? = some 2 ∧
          d.global_shape[1 + j]? = some (2 * 2) ∧
          (2 ∣ 4 → d.global_shape[1 + j]? = some 4) ∧
          d.global_offset[1 + j]? = some (1 * 2)) ∧
        (∀ a, a < 1 →
          d.global_shape[a]? = some (5 * 1) ∧
          d.global_offset[a]? = some (2 * 1) ∧
          d.axis_fragmentations[a]? = some 5) := by
  have h := c3_toDialectA_computation "k" "" ⟨[4], [⟨⟨0, [2]⟩, ⟨[2], [2], 0⟩⟩]⟩
    [(0, 2, 5)] false ⟨⟨0, [2]⟩, ⟨[2], [2], 0⟩⟩ [] rfl (by decide) (by decide)
    (by decide) (by decide) (by decide)
  obtain ⟨ds, hds, hlen, hget⟩ := h
  refine ⟨ds, hds, hlen, ?_⟩
  intro i hi
  obtain ⟨d, hd?, hpn, hax, hpre⟩ := hget i hi
  refine ⟨d, hd?, hpn, ?_, ?_⟩
  · intro j hj
    have hx := hax j hj
    have hj0 : j = 0 := by omega
    subst hj0
    exact ⟨hx.1, hx.2.1, fun _ => hx.2.2.1 (by decide), by
      have := hx.2.2.2
      simpa using this⟩
  · intro a ha
    have hx := hpre a ha
    have ha0 : a = 0 := by omega
    subst ha0
    simpa using hx

/-! ### C9: the placement precondition -/

theorem exceptErrBind {ε α β : Type} (e : ε) (f : α → Except ε β) :
    (Except.error e >>= f : Except ε β) = Except.error e := rfl

theorem computeFragm_error (szs : List Nat) :
    ∀ (gs : List Nat) (j0 : Nat) (e : PyError),
    computeFragm szs gs j0 = .error e → e = .indexError ∨ e = .zeroDiv
  | [], j0, e => fun h => Except.noConfusion h
  | g :: gs, j0, e => by
    intro h
    unfold computeFragm at h
    split at h
    · injection h with he
      exact Or.inl he.symm
    · split at h
      · injection h with he
        exact Or.inr he.symm
      · match hrec : computeFragm szs gs (j0 + 1) with
        | .ok f =>
          rw [hrec] at h
          simp only [exceptOkBind] at h
          exact Except.noConfusion h
        | .error e' =>
          rw [hrec] at h
          simp only [exceptErrBind] at h
          have he : e' = e := Except.error.inj h
          exact he ▸ computeFragm_error szs gs (j0 + 1) e' hrec

theorem rankOffsetsFor_error (p : Nat) (offs szs : List Nat) :
    ∀ (fragm : List Nat) (j0 : Nat) (e : PyError),
    rankOffsetsFor p offs szs fragm j0 = .error e → e = .indexError ∨ e = .zeroDiv
  | [], j0, e => fun h => Except.noConfusion h
  | f :: fs, j0, e => by
    intro h
    unfold rankOffsetsFor at h
    split at h
    · split at h
      · injection h with he
        exact Or.inr he.symm
      · match hrec : rankOffsetsFor p offs szs fs (j0 + 1) with
        | .ok ros =>
          rw [hrec] at h
          simp only [exceptOkBind] at h
          exact Except.noConfusion h
        | .error e' =>
          rw [hrec] at h
          simp only [exceptErrBind] at h
          have he : e' = e := Except.error.inj h
          exact he ▸ rankOffsetsFor_error p offs szs fs (j0 + 1) e' hrec
    · injection h with he
      exact Or.inl he.symm

theorem convertShardList_error (key : String) (pre : List (Nat × Nat × Nat)) (p : Nat)
    (allow : Bool) (fragm : List Nat) :
    ∀ (shards : List LocalShard) (acc : List (Nat × Nat × Nat)) (e : PyError),
    convertShardList key pre p allow fragm shards acc = .error e →
    e = .indexError ∨ e = .zeroDiv
  | [], acc, e => fun h => Except.noConfusion h
  | sh :: shards, acc, e => by
    intro h
    unfold convertShardList at h
    match hros : rankOffsetsFor p sh.metadata.shard_offsets sh.metadata.shard_sizes fragm 0 with
    | .error e' =>
      rw [hros] at h
      simp only [exceptErrBind] at h
      have he : e' = e := Except.error.inj h
      exact he ▸ rankOffsetsFor_error p sh.metadata.shard_offsets sh.metadata.shard_sizes
        fragm 0 e' hros
    | .ok ros =>
      rw [hros] at h
      simp only [exceptOkBind] at h
      match hrec : convertShardList key pre p allow fragm shards (acc ++ ros) with
      | .ok ds =>
        rw [hrec] at h
        simp only [exceptOkBind] at h
        exact Except.noConfusion h
      | .error e' =>
        rw [hrec] at h
        simp only [exceptErrBind] at h
        have he : e' = e := Except.error.inj h
        exact he ▸ convertShardList_error key pre p allow fragm shards (acc ++ ros) e' hrec

/-- C9: `_torch_to_mcore_sharded_tensor` fails with the placement assertion,
before producing any descriptor, exactly when the local shards do not all
share the first shard's placement; when they do, the placement assertion
passes: whatever else happens, the result is never that assertion failure. -/
theorem c9_placement_precondition (key pfx : String) (X : TorchShardedTensor)
    (pre : List (Nat × Nat × Nat)) (allow : Bool) :
    (placementsOk X.shards = false →
      _torch_to_mcore_sharded_tensor key X pre pfx allow = .error .assertPlacement) ∧
    (placementsOk X.shards = true →
      _torch_to_mcore_sharded_tensor key X pre pfx allow ≠ .error .assertPlacement) := by
  constructor
  · intro hbad
    unfold _torch_to_mcore_sharded_tensor
    rw [hbad]
    rfl
  · intro hgood
    unfold _torch_to_mcore_sharded_tensor
    rw [hgood]
    simp only [Bool.true_eq_false, if_false]
    match hX : X.shards with
    | [] =>
      show (if X.size.isEmpty = true then pure [] else throw PyError.indexError :
          Except PyError (List McoreShardedTensor)) ≠ Except.error PyError.assertPlacement
      by_cases hsz : X.size.isEmpty = true
      · rw [if_pos hsz]
        exact fun h => Except.noConfusion h
      · rw [if_neg hsz]
        intro h
        injection h with he
        exact PyError.noConfusion he
    | s0 :: rest =>
      show (do
          let fragm ← computeFragm s0.metadata.shard_sizes X.size 0
          convertShardList (pfx ++ key) pre pre.length allow fragm (s0 :: rest) []) ≠
        Except.error PyError.assertPlacement
      match hfr : computeFragm s0.metadata.shard_sizes X.size 0 with
      | .error e =>
        simp only [exceptErrBind]
        intro h
        have he : e = .assertPlacement := Except.error.inj h
        rcases computeFragm_error s0.metadata.shard_sizes X.size 0 e hfr with hc | hc <;>
          (rw [hc] at he; exact PyError.noConfusion he)
      | .ok fragm =>
        simp only [exceptOkBind]
        intro h
        rcases convertShardList_error (pfx ++ key) pre pre.length allow fragm (s0 :: rest)
            [] .assertPlacement h with hc | hc <;> exact PyError.noConfusion hc

/-- Witness for C9: a two-shard tensor with differing placements is rejected;
the same tensor with equal placements is not rejected by the placement
assertion. -/
theorem c9_placement_precondition_witness :
    (placementsOk (TorchShardedTensor.mk [4]
        [⟨⟨0, [2]⟩, ⟨[0], [2], 0⟩⟩, ⟨⟨1, [2]⟩, ⟨[2], [2], 1⟩⟩]).shards = false →
      _torch_to_mcore_sharded_tensor "k"
        ⟨[4], [⟨⟨0, [2]⟩, ⟨[0], [2], 0⟩⟩, ⟨⟨1, [2]⟩, ⟨[2], [2], 1⟩⟩]⟩ [] "" false
        = .error .assertPlacement) ∧
    (placementsOk (TorchShardedTensor.mk [4]
        [⟨⟨0, [2]⟩, ⟨[0], [2], 0⟩⟩, ⟨⟨1, [2]⟩, ⟨[2], [2], 1⟩⟩]).shards = true →
      _torch_to_mcore_sharded_tensor "k"
        ⟨[4], [⟨⟨0, [2]⟩, ⟨[0], [2], 0⟩⟩, ⟨⟨1, [2]⟩, ⟨[2], [2], 1⟩⟩]⟩ [] "" false
        ≠ .error .assertPlacement) :=
  c9_placement_precondition "k" "" ⟨[4],
    [⟨⟨0, [2]⟩, ⟨[0], [2], 0⟩⟩, ⟨⟨1, [2]⟩, ⟨[2], [2], 1⟩⟩]⟩ [] false

/-! ### C4: the per-descriptor effect of the load conversion -/

/-- C4: one iteration of the `zip` loop of `_mcore_to_pyt_sharded_tensor`
removes exactly the first `prepend_axis_num` entries of `global_shape`,
`global_offset` and `axis_fragmentations`, resets `prepend_axis_num` to `0`,
rebinds `data` to the supplied buffer, and then validates the descriptor:
it succeeds exactly when the mutated descriptor passes
`validate_metadata_integrity`, and otherwise fails with `ShapeMismatchError`
for that descriptor's key. -/
theorem c4_toDialectB_effect (ten : Tensor) (s : McoreShardedTensor) :
    (validate_metadata_integrity (stripApply ten s) = true →
      stripOne ten s = .ok (stripApply ten s) ∧
      (stripApply ten s).global_shape = s.global_shape.drop s.prepend_axis_num ∧
      (stripApply ten s).global_offset = s.global_offset.drop s.prepend_axis_num ∧
      (stripApply ten s).axis_fragmentations
        = s.axis_fragmentations.drop s.prepend_axis_num ∧
      (stripApply ten s).prepend_axis_num = 0 ∧
      (stripApply ten s).data = ten) ∧
    (validate_metadata_integrity (stripApply ten s) = false →
      stripOne ten s = .error (.shapeMismatch s.key)) := by
  constructor
  · intro hv
    refine ⟨?_, rfl, rfl, rfl, rfl, rfl⟩
    unfold stripOne
    rw [if_pos hv]
    rfl
  · intro hv
    unfold stripOne
    rw [if_neg (by rw [hv]; exact Bool.false_ne_true)]
    rfl

/-- Witness for C4: a valid descriptor with one prepend axis is stripped and
rebound; the same descriptor with a wrong-shaped buffer fails with
`ShapeMismatchError` naming its key. -/
theorem c4_toDialectB_effect_witness :
    stripOne ⟨1, [2]⟩ ⟨"k", ⟨0, [2]⟩, [3, 4], [1, 2], [3, 2], .nat 0, 1, false⟩
      = .ok (stripApply ⟨1, [2]⟩
          ⟨"k", ⟨0, [2]⟩, [3, 4], [1, 2], [3, 2], .nat 0, 1, false⟩) ∧
    stripOne ⟨1, [3]⟩ ⟨"k", ⟨0, [2]⟩, [3, 4], [1, 2], [3, 2], .nat 0, 1, false⟩
      = .error (.shapeMismatch "k") :=
  ⟨((c4_toDialectB_effect ⟨1, [2]⟩
      ⟨"k", ⟨0, [2]⟩, [3, 4], [1, 2], [3, 2], .nat 0, 1, false⟩).1 (by decide)).1,
   (c4_toDialectB_effect ⟨1, [3]⟩
      ⟨"k", ⟨0, [2]⟩, [3, 4], [1, 2], [3, 2], .nat 0, 1, false⟩).2 (by decide)⟩

/-! ### C8: buffer/descriptor pairing in the load conversion -/

/-- Counterexample to C8 as stated: `_mcore_to_pyt_sharded_tensor` on one
buffer and two descriptors does not fail at all — `zip` silently truncates
the pairing, the first descriptor is converted and the second is passed
through untouched (its prepend axis intact); no arity error exists. -/
theorem c8_counterexample :
    [(⟨1, [2]⟩ : Tensor)].length
      ≠ [(⟨"k", ⟨0, [2]⟩, [3, 4], [1, 2], [3, 2], .nat 0, 1, false⟩ : McoreShardedTensor),
         ⟨"k2", ⟨7, [9]⟩, [8], [0], [1], .nat 0, 0, false⟩].length ∧
    _mcore_to_pyt_sharded_tensor [⟨1, [2]⟩]
      [⟨"k", ⟨0, [2]⟩, [3, 4], [1, 2], [3, 2], .nat 0, 1, false⟩,
       ⟨"k2", ⟨7, [9]⟩, [8], [0], [1], .nat 0, 0, false⟩]
      = .ok ⟨[4], [⟨⟨1, [2]⟩, ⟨[2], [2], 0⟩⟩, ⟨⟨7, [9]⟩, ⟨[0], [9], 0⟩⟩]⟩ :=
  ⟨by decide, rfl⟩

/-- C8 amended: `_mcore_to_pyt_sharded_tensor` performs no arity check:
buffers and descriptors are paired positionally up to the shorter sequence
length, descriptors beyond the buffer count are passed through unmodified,
and when the sequences have equal length every buffer is paired with its
same-index descriptor. -/
theorem c8_pairing (ts : List Tensor) (ss : List McoreShardedTensor)
    (hle : ts.length ≤ ss.length)
    (hval : ∀ i (h : i < ts.length) (h' : i < ss.length),
      validate_metadata_integrity (stripApply ts[i] ss[i]) = true) :
    ∃ out, zipStrip ts ss = .ok out ∧
      _mcore_to_pyt_sharded_tensor ts ss
        = .ok (sharded_tensor_to_torch_sharded_tensor out) ∧
      out.length = ss.length ∧
      (∀ i (h : i < ts.length) (h' : i < ss.length),
        out[i]? = some (stripApply ts[i] ss[i])) ∧
      (∀ i, ts.length ≤ i → out[i]? = ss[i]?) := by
  obtain ⟨out, hok, hlen, hsome, hrest⟩ := zipStrip_ok ts ss hle hval
  refine ⟨out, hok, ?_, hlen, hsome, hrest⟩
  unfold _mcore_to_pyt_sharded_tensor
  rw [hok]
  rfl

/-- Witness for C8 amended: two buffers paired with two descriptors. -/
theorem c8_pairing_witness :
    ∃ out, zipStrip [⟨1, [2]⟩, ⟨2, [2]⟩]
        [⟨"a", ⟨0, [2]⟩, [4], [0], [2], .nat 0, 0, false⟩,
         ⟨"b", ⟨0, [2]⟩, [4], [2], [2], .nat 0, 0, false⟩] = .ok out ∧
      _mcore_to_pyt_sharded_tensor [⟨1, [2]⟩, ⟨2, [2]⟩]
          [⟨"a", ⟨0, [2]⟩, [4], [0], [2], .nat 0, 0, false⟩,
           ⟨"b", ⟨0, [2]⟩, [4], [2], [2], .nat 0, 0, false⟩]
        = .ok (sharded_tensor_to_torch_sharded_tensor out) ∧
      out.length = 2 ∧
      (∀ i (_h : i < ([⟨1, [2]⟩, ⟨2, [2]⟩] : List Tensor).length)
          (h' : i < ([⟨"a", ⟨0, [2]⟩, [4], [0], [2], .nat 0, 0, false⟩,
            ⟨"b", ⟨0, [2]⟩, [4], [2], [2], .nat 0, 0, false⟩] :
              List McoreShardedTensor).length),
        out[i]? = some (stripApply ([⟨1, [2]⟩, ⟨2, [2]⟩] : List Tensor)[i]
          ([⟨"a", ⟨0, [2]⟩, [4], [0], [2], .nat 0, 0, false⟩,
            ⟨"b", ⟨0, [2]⟩, [4], [2], [2], .nat 0, 0, false⟩] :
              List McoreShardedTensor)[i])) ∧
      (∀ i, ([⟨1, [2]⟩, ⟨2, [2]⟩] : List Tensor).length ≤ i →
        out[i]? = ([⟨"a", ⟨0, [2]⟩, [4], [0], [2], .nat 0, 0, false⟩,
          ⟨"b", ⟨0, [2]⟩, [4], [2], [2], .nat 0, 0, false⟩] :
            List McoreShardedTensor)[i]?) :=
  c8_pairing [⟨1, [2]⟩, ⟨2, [2]⟩]
    [⟨"a", ⟨0, [2]⟩, [4], [0], [2], .nat 0, 0, false⟩,
     ⟨"b", ⟨0, [2]⟩, [4], [2], [2], .nat 0, 0, false⟩]
    (by decide) (by decide)

/-! ### C2: the merge walk and missing keys -/

theorem convertTop_ok_keys (ssd : List (String × TemplVal)) :
    ∀ (ks : List String) (cv : CkptVal) (r : CkptVal),
    convertTop ssd cv ks = .ok r → ∀ k ∈ ks, (alookup ssd k).isSome = true
  | [], cv, r => by
    intro _ k hk
    exact absurd hk (List.not_mem_nil k)
  | k0 :: ks, cv, r => by
    intro h k hk
    unfold convertTop at h
    match hx : alookup ssd k0 with
    | none =>
      rw [hx] at h
      exact Except.noConfusion h
    | some tv =>
      rw [hx] at h
      have h2 : (do
          let ckpt2 ← convertVal cv k0 tv
          convertTop ssd ckpt2 ks) = Except.ok r := h
      rcases List.mem_cons.mp hk with rfl | hk'
      · rw [hx]
        rfl
      · match hcv : convertVal cv k0 tv with
        | .error e =>
          rw [hcv] at h2
          simp only [exceptErrBind] at h2
          exact Except.noConfusion h2
        | .ok cv' =>
          rw [hcv] at h2
          simp only [exceptOkBind] at h2
          exact convertTop_ok_keys ssd ks cv' r h2 k hk'

/-- Counterexample to C2 as stated: a template whose key `"a"` is absent
from the checkpoint does not raise any missing-key error —
`mcore_to_pyt_sharded_state_dict` walks the checkpoint's keys, not the
template's, so the empty checkpoint converts successfully. -/
theorem c2_counterexample :
    mcore_to_pyt_sharded_state_dict [] [("a", .tensors [])] = .ok (.dict []) := rfl

/-- C2 amended: the walk of `mcore_to_pyt_sharded_state_dict` is driven by
the checkpoint's top-level keys: success requires every checkpoint key to be
present in the template, a checkpoint key absent from the template fails
with the missing-key assertion naming that key, and below a template
sub-mapping the walk follows the template's keys, so a checkpoint missing a
tensor-list leaf under a sub-mapping fails with a key lookup error naming
that leaf's key (template keys absent from the checkpoint at top level are
silently ignored). -/
theorem c2_merge_walk :
    (∀ (ckpt : List (String × CkptVal)) (ssd : List (String × TemplVal)) (r : CkptVal),
      mcore_to_pyt_sharded_state_dict ckpt ssd = .ok r →
      ∀ k ∈ ckpt.map Prod.fst, (alookup ssd k).isSome = true) ∧
    (∀ (k : String) (v : CkptVal) (rest : List (String × CkptVal))
        (ssd : List (String × TemplVal)),
      alookup ssd k = none →
      mcore_to_pyt_sharded_state_dict ((k, v) :: rest) ssd
        = .error (.assertMissing k)) ∧
    mcore_to_pyt_sharded_state_dict [("a", .dict [])]
        [("a", .dict [("b", .tensors [])])]
      = .error (.keyError "b") := by
  refine ⟨?_, ?_, rfl⟩
  · intro ckpt ssd r h k hk
    exact convertTop_ok_keys ssd (ckpt.map Prod.fst) (.dict ckpt) r h k hk
  · intro k v rest ssd hnone
    unfold mcore_to_pyt_sharded_state_dict convertTop
    rw [List.map_cons]
    show (match alookup ssd k with
      | none => throw (PyError.assertMissing k)
      | some tv => do
          let ckpt2 ← convertVal (CkptVal.dict ((k, v) :: rest)) k tv
          convertTop ssd ckpt2 (rest.map Prod.fst) : Except PyError CkptVal)
      = Except.error (PyError.assertMissing k)
    rw [hnone]
    rfl

/-- Witness for C2 amended: a successful merge forces the checkpoint key to
be in the template, and a checkpoint key missing from the template is
reported by name. -/
theorem c2_merge_walk_witness :
    (∀ k ∈ ([("a", CkptVal.tensors [])].map Prod.fst),
      (alookup [("a", TemplVal.tensors [])] k).isSome = true) ∧
    mcore_to_pyt_sharded_state_dict [("x", .bytes ⟨0⟩)] []
      = .error (.assertMissing "x") :=
  ⟨c2_merge_walk.1 [("a", .tensors [])] [("a", .tensors [])]
      (.dict [("a", .pyt ⟨[], []⟩)]) rfl,
   c2_merge_walk.2.1 "x" (.bytes ⟨0⟩) [] [] rfl⟩

/-! ### C5: the layer-index resolver -/

theorem foldl_max_acc : ∀ (l : List Nat) (a : Nat), l.foldl max a = max a (l.foldl max 0)
  | [], a => by simp
  | n :: rest, a => by
    have ih1 := foldl_max_acc rest (max a n)
    have ih2 := foldl_max_acc rest (max 0 n)
    simp only [List.foldl_cons]
    omega

theorem foldl_maxsucc : ∀ (l : List Nat) (a : Nat), l ≠ [] →
    l.foldl (fun x n => max x (n + 1)) a = max a (l.foldl max 0 + 1)
  | [], a => by intro h; exact absurd rfl h
  | [n], a => by
    intro _
    simp only [List.foldl_cons, List.foldl_nil]
    omega
  | n :: r :: rs, a => by
    intro _
    have ih := foldl_maxsucc (r :: rs) (max a (n + 1)) (by simp)
    have hacc := foldl_max_acc (r :: rs) (max 0 n)
    simp only [List.foldl_cons] at ih hacc ⊢
    omega

theorem numLayersScan_fold :
    ∀ (ks : List String),
    (∀ k ∈ ks, strStarts k layersPre = true → (layerIdx? k).isSome = true) →
    ∀ acc, numLayersScan ks acc
      = .ok ((ks.filterMap
          (fun k => if strStarts k layersPre then layerIdx? k else none)).foldl
            (fun a n => max a (n + 1)) acc)
  | [], _ => by intro acc; rfl
  | k :: ks, hp => by
    intro acc
    have ih := numLayersScan_fold ks (fun k' hk' => hp k' (List.mem_cons_of_mem k hk'))
    unfold numLayersScan
    by_cases hs : strStarts k layersPre = true
    · rw [if_pos hs]
      have hidx := hp k (List.mem_cons_self k ks) hs
      match hx : layerIdx? k with
      | none => rw [hx] at hidx; exact absurd hidx (by simp)
      | some n =>
        rw [List.filterMap_cons, if_pos hs, hx]
        simp only [List.foldl_cons]
        exact ih (max acc (n + 1))
    · rw [if_neg hs]
      rw [List.filterMap_cons, if_neg hs]
      exact ih acc

/-- C5: the layer-index resolver of `pyt_to_mcore_state_dict` is a single
fold over the keys: starting from any accumulator it returns the maximum of
the accumulator and `N + 1` over the layer indices `N` of all keys matching
the `"module.decoder.layers.N."` convention; in particular, starting from
`0` with at least one matching key it returns `max(N) + 1`, and on the keys
`module.decoder.layers.0.x` and `module.decoder.layers.3.y` it returns `4`.
(All matching keys are assumed to carry a numeric fourth component, else the
scan raises `ValueError`.) -/
theorem c5_layer_resolver (ks : List String)
    (hp : ∀ k ∈ ks, strStarts k layersPre = true → (layerIdx? k).isSome = true) :
    (∀ acc, numLayersScan ks acc
      = .ok ((ks.filterMap
          (fun k => if strStarts k layersPre then layerIdx? k else none)).foldl
            (fun a n => max a (n + 1)) acc)) ∧
    (ks.filterMap (fun k => if strStarts k layersPre then layerIdx? k else none) ≠ [] →
      numLayersScan ks 0
        = .ok ((ks.filterMap
            (fun k => if strStarts k layersPre then layerIdx? k else none)).foldl
              max 0 + 1)) ∧
    numLayersScan ["module.decoder.layers.0.x", "module.decoder.layers.3.y"] 0
      = .ok 4 := by
  refine ⟨numLayersScan_fold ks hp, ?_, rfl⟩
  intro hne
  rw [numLayersScan_fold ks hp 0, foldl_maxsucc _ 0 hne]
  have hmax : max 0 ((ks.filterMap
      (fun k => if strStarts k layersPre then layerIdx? k else none)).foldl max 0 + 1)
      = (ks.filterMap
          (fun k => if strStarts k layersPre then layerIdx? k else none)).foldl max 0 + 1 := by
    omega
  rw [hmax]

/-- Witness for C5 at the spec's example keys. -/
theorem c5_layer_resolver_witness :
    numLayersScan ["module.decoder.layers.0.x", "module.decoder.layers.3.y"] 0
      = .ok 4 :=
  (c5_layer_resolver ["module.decoder.layers.0.x", "module.decoder.layers.3.y"]
    (by decide)).2.2

/-! ### Helper lemmas: save-side descriptor collection -/

theorem astore_collectM {st : List (String × SaveVal)} {k : String} {v : SaveVal} :
    ∀ d ∈ collectMList (astore st k v), d ∈ collectMList st ∨ d ∈ collectMVal v := by
  induction st with
  | nil =>
    intro d hd
    unfold astore collectMList at hd
    simp only [collectMList] at hd
    rcases List.mem_append.mp hd with h | h
    · exact Or.inr h
    · exact absurd h (List.not_mem_nil d)
  | cons hd0 tl ih =>
    intro d hd
    obtain ⟨k', v'⟩ := hd0
    unfold astore at hd
    by_cases hk : k' = k
    · rw [if_pos hk] at hd
      simp only [collectMList] at hd ⊢
      rcases List.mem_append.mp hd with h | h
      · exact Or.inr h
      · exact Or.inl (List.mem_append.mpr (Or.inr h))
    · rw [if_neg hk] at hd
      simp only [collectMList] at hd ⊢
      rcases List.mem_append.mp hd with h | h
      · exact Or.inl (List.mem_append.mpr (Or.inl h))
      · rcases ih d h with h' | h'
        · exact Or.inl (List.mem_append.mpr (Or.inr h'))
        · exact Or.inr h'

theorem astore_collectO {st : List (String × SaveVal)} {k : String} {v : SaveVal} :
    ∀ o ∈ collectOList (astore st k v), o ∈ collectOList st ∨ o ∈ collectOVal v := by
  induction st with
  | nil =>
    intro o ho
    unfold astore collectOList at ho
    simp only [collectOList] at ho
    rcases List.mem_append.mp ho with h | h
    · exact Or.inr h
    · exact absurd h (List.not_mem_nil o)
  | cons hd0 tl ih =>
    intro o ho
    obtain ⟨k', v'⟩ := hd0
    unfold astore at ho
    by_cases hk : k' = k
    · rw [if_pos hk] at ho
      simp only [collectOList] at ho ⊢
      rcases List.mem_append.mp ho with h | h
      · exact Or.inr h
      · exact Or.inl (List.mem_append.mpr (Or.inr h))
    · rw [if_neg hk] at ho
      simp only [collectOList] at ho ⊢
      rcases List.mem_append.mp ho with h | h
      · exact Or.inl (List.mem_append.mpr (Or.inl h))
      · rcases ih o h with h' | h'
        · exact Or.inl (List.mem_append.mpr (Or.inr h'))
        · exact Or.inr h'

theorem memVal_collectM {st : List (String × SaveVal)} {k : String} {v : SaveVal}
    (hm : (k, v) ∈ st) : ∀ d ∈ collectMVal v, d ∈ collectMList st := by
  induction st with
  | nil => exact absurd hm (List.not_mem_nil _)
  | cons hd0 tl ih =>
    intro d hd
    rcases List.mem_cons.mp hm with heq | htl
    · rw [← heq]
      simp only [collectMList]
      exact List.mem_append.mpr (Or.inl hd)
    · obtain ⟨k', v'⟩ := hd0
      simp only [collectMList]
      exact List.mem_append.mpr (Or.inr (ih htl d hd))

theorem memVal_collectO {st : List (String × SaveVal)} {k : String} {v : SaveVal}
    (hm : (k, v) ∈ st) : ∀ o ∈ collectOVal v, o ∈ collectOList st := by
  induction st with
  | nil => exact absurd hm (List.not_mem_nil _)
  | cons hd0 tl ih =>
    intro o ho
    rcases List.mem_cons.mp hm with heq | htl
    · rw [← heq]
      simp only [collectOList]
      exact List.mem_append.mpr (Or.inl ho)
    · obtain ⟨k', v'⟩ := hd0
      simp only [collectOList]
      exact List.mem_append.mpr (Or.inr (ih htl o ho))

theorem convertShardList_fields (key : String) (pre : List (Nat × Nat × Nat)) (p : Nat)
    (allow : Bool) (fragm : List Nat) :
    ∀ (shards : List LocalShard) (acc : List (Nat × Nat × Nat))
      (ds : List McoreShardedTensor),
    convertShardList key pre p allow fragm shards acc = .ok ds →
    ∀ d ∈ ds, d.replica_id = .nat 0 ∧ d.prepend_axis_num = p ∧
      d.allow_shape_mismatch = allow
  | [], acc, ds => by
    intro h d hd
    have hds : ds = [] := (Except.ok.inj h).symm
    rw [hds] at hd
    exact absurd hd (List.not_mem_nil d)
  | sh :: shards, acc, ds => by
    intro h d hd
    unfold convertShardList at h
    match hros : rankOffsetsFor p sh.metadata.shard_offsets sh.metadata.shard_sizes fragm 0 with
    | .error e =>
      rw [hros] at h
      simp only [exceptErrBind] at h
      exact Except.noConfusion h
    | .ok ros =>
      rw [hros] at h
      simp only [exceptOkBind] at h
      match hrec : convertShardList key pre p allow fragm shards (acc ++ ros) with
      | .error e =>
        rw [hrec] at h
        simp only [exceptErrBind] at h
        exact Except.noConfusion h
      | .ok ds' =>
        rw [hrec] at h
        simp only [exceptOkBind] at h
        have hds : ds = from_rank_offsets key sh.tensor (pre ++ (acc ++ ros)) (.nat 0) p allow
            :: ds' := (Except.ok.inj h).symm
        rw [hds] at hd
        rcases List.mem_cons.mp hd with heq | htl
        · rw [heq]
          exact ⟨rfl, rfl, rfl⟩
        · exact convertShardList_fields key pre p allow fragm shards (acc ++ ros) ds' hrec d htl

theorem torch_to_mcore_fields (key pfx : String) (X : TorchShardedTensor)
    (pre : List (Nat × Nat × Nat)) (allow : Bool) (ds : List McoreShardedTensor)
    (h : _torch_to_mcore_sharded_tensor key X pre pfx allow = .ok ds) :
    ∀ d ∈ ds, d.replica_id = .nat 0 ∧ d.prepend_axis_num = pre.length ∧
      d.allow_shape_mismatch = allow := by
  unfold _torch_to_mcore_sharded_tensor at h
  by_cases hp : placementsOk X.shards = false
  · rw [if_pos hp] at h
    exact Except.noConfusion h
  · rw [if_neg hp] at h
    match hX : X.shards with
    | [] =>
      rw [hX] at h
      by_cases hsz : X.size.isEmpty = true
      · simp only [hsz, if_true] at h
        have hds : ds = [] := (Except.ok.inj h).symm
        rw [hds]
        intro d hd
        exact absurd hd (List.not_mem_nil d)
      · simp only [hsz, if_false] at h
        exact Except.noConfusion h
    | s0 :: rest =>
      rw [hX] at h
      have h2 : (do
          let fragm ← computeFragm s0.metadata.shard_sizes X.size 0
          convertShardList (pfx ++ key) pre pre.length allow fragm (s0 :: rest) [])
            = Except.ok ds := h
      match hfr : computeFragm s0.metadata.shard_sizes X.size 0 with
      | .error e =>
        rw [hfr] at h2
        simp only [exceptErrBind] at h2
        exact Except.noConfusion h2
      | .ok fragm =>
        rw [hfr] at h2
        simp only [exceptOkBind] at h2
        exact convertShardList_fields (pfx ++ key) pre pre.length allow fragm
          (s0 :: rest) [] ds h2

theorem saveConvertSub_inv (dp : Nat) (sh : String) (pre : List (Nat × Nat × Nat))
    (allow : Bool) :
    ∀ (items : List (String × SaveVal)),
    (∀ kk vv, (kk, vv) ∈ items →
      ∀ (state : List (String × SaveVal)) (k pfx : String)
        (st' : List (String × SaveVal)),
      saveConvert dp state k sh vv pre pfx allow = .ok st' →
      ((∀ d ∈ collectMList st', d ∈ collectMList state ∨ d ∈ collectMVal vv ∨
          (d.replica_id = .nat 0 ∧ d.prepend_axis_num = pre.length ∧
           d.allow_shape_mismatch = allow)) ∧
       (∀ o ∈ collectOList st', o ∈ collectOList state ∨ o ∈ collectOVal vv ∨
          o.replica_id = .triple 0 0 dp))) →
    ∀ (cur : List (String × SaveVal)) (pfx : String) (cur' : List (String × SaveVal)),
    saveConvertSub dp cur sh pre pfx allow items = .ok cur' →
    ((∀ d ∈ collectMList cur', d ∈ collectMList cur ∨ d ∈ collectMList items ∨
        (d.replica_id = .nat 0 ∧ d.prepend_axis_num = pre.length ∧
         d.allow_shape_mismatch = allow)) ∧
     (∀ o ∈ collectOList cur', o ∈ collectOList cur ∨ o ∈ collectOList items ∨
        o.replica_id = .triple 0 0 dp))
  | [], _ => by
    intro cur pfx cur' h
    have hc : cur = cur' := Except.ok.inj h
    rw [← hc]
    exact ⟨fun d hd => Or.inl hd, fun o ho => Or.inl ho⟩
  | (kk, vv) :: rest, hp => by
    intro cur pfx cur' h
    have h2 : (do
        let cur1 ← saveConvert dp cur kk sh vv pre (pfx ++ kk ++ ".") allow
        saveConvertSub dp cur1 sh pre pfx allow rest) = Except.ok cur' := h
    match hcv : saveConvert dp cur kk sh vv pre (pfx ++ kk ++ ".") allow with
    | .error e =>
      rw [hcv] at h2
      simp only [exceptErrBind] at h2
      exact Except.noConfusion h2
    | .ok cur1 =>
      rw [hcv] at h2
      simp only [exceptOkBind] at h2
      have hhead := hp kk vv (List.mem_cons_self _ _) cur kk (pfx ++ kk ++ ".") cur1 hcv
      have hrest := saveConvertSub_inv dp sh pre allow rest
        (fun kk' vv' hm => hp kk' vv' (List.mem_cons_of_mem _ hm)) cur1 pfx cur' h2
      constructor
      · intro d hd
        rcases hrest.1 d hd with hin | hin | hin
        · rcases hhead.1 d hin with hc | hc | hc
          · exact Or.inl hc
          · refine Or.inr (Or.inl ?_)
            simp only [collectMList]
            exact List.mem_append.mpr (Or.inl hc)
          · exact Or.inr (Or.inr hc)
        · refine Or.inr (Or.inl ?_)
          simp only [collectMList]
          exact List.mem_append.mpr (Or.inr hin)
        · exact Or.inr (Or.inr hin)
      · intro o ho
        rcases hrest.2 o ho with hin | hin | hin
        · rcases hhead.2 o hin with hc | hc | hc
          · exact Or.inl hc
          · refine Or.inr (Or.inl ?_)
            simp only [collectOList]
            exact List.mem_append.mpr (Or.inl hc)
          · exact Or.inr (Or.inr hc)
        · refine Or.inr (Or.inl ?_)
          simp only [collectOList]
          exact List.mem_append.mpr (Or.inr hin)
        · exact Or.inr (Or.inr hin)

theorem saveConvert_inv_aux (dp : Nat) (sh : String) (pre : List (Nat × Nat × Nat))
    (allow : Bool) :
    ∀ (n : Nat) (v : SaveVal), sizeOf v ≤ n →
    ∀ (state : List (String × SaveVal)) (k pfx : String)
      (st' : List (String × SaveVal)),
    saveConvert dp state k sh v pre pfx allow = .ok st' →
    ((∀ d ∈ collectMList st', d ∈ collectMList state ∨ d ∈ collectMVal v ∨
        (d.replica_id = .nat 0 ∧ d.prepend_axis_num = pre.length ∧
         d.allow_shape_mismatch = allow)) ∧
     (∀ o ∈ collectOList st', o ∈ collectOList state ∨ o ∈ collectOVal v ∨
        o.replica_id = .triple 0 0 dp)) := by
  intro n
  induction n with
  | zero =>
    intro v hv
    exact absurd hv (by cases v <;> simp)
  | succ n ih =>
    intro v hv state k pfx st' hok
    cases v with
    | mcore ds =>
      have hst : state = st' := Except.ok.inj hok
      rw [← hst]
      exact ⟨fun d hd => Or.inl hd, fun o ho => Or.inl ho⟩
    | obj o0 =>
      have hst : state = st' := Except.ok.inj hok
      rw [← hst]
      exact ⟨fun d hd => Or.inl hd, fun o ho => Or.inl ho⟩
    | bytes b =>
      have hst : astore state k (.obj (_torch_to_mcore_sharded_object dp sh b pre pfx))
          = st' := Except.ok.inj hok
      rw [← hst]
      constructor
      · intro d hd
        rcases astore_collectM d hd with hin | hin
        · exact Or.inl hin
        · exact absurd hin (List.not_mem_nil d)
      · intro o ho
        rcases astore_collectO o ho with hin | hin
        · exact Or.inl hin
        · have : o = _torch_to_mcore_sharded_object dp sh b pre pfx := by
            simpa [collectOVal] using hin
          exact Or.inr (Or.inr (by rw [this]; rfl))
    | pyt t =>
      have h2 : (do
          let ds ← _torch_to_mcore_sharded_tensor sh t pre pfx allow
          pure (astore state k (SaveVal.mcore ds))) = Except.ok st' := hok
      match hds : _torch_to_mcore_sharded_tensor sh t pre pfx allow with
      | .error e =>
        rw [hds] at h2
        simp only [exceptErrBind] at h2
        exact Except.noConfusion h2
      | .ok ds =>
        rw [hds] at h2
        simp only [exceptOkBind] at h2
        have hst : astore state k (.mcore ds) = st' := Except.ok.inj h2
        rw [← hst]
        constructor
        · intro d hd
          rcases astore_collectM d hd with hin | hin
          · exact Or.inl hin
          · have hds' : d ∈ ds := by simpa [collectMVal] using hin
            exact Or.inr (Or.inr (torch_to_mcore_fields sh pfx t pre allow ds hds d hds'))
        · intro o ho
          rcases astore_collectO o ho with hin | hin
          · exact Or.inl hin
          · exact absurd hin (by simp [collectOVal])
    | dict entries =>
      have h2 : (do
          let entries' ← saveConvertSub dp entries sh pre pfx allow entries
          pure (astore state k (SaveVal.dict entries'))) = Except.ok st' := hok
      match hsub : saveConvertSub dp entries sh pre pfx allow entries with
      | .error e =>
        rw [hsub] at h2
        simp only [exceptErrBind] at h2
        exact Except.noConfusion h2
      | .ok entries' =>
        rw [hsub] at h2
        simp only [exceptOkBind] at h2
        have hst : astore state k (.dict entries') = st' := Except.ok.inj h2
        rw [← hst]
        have hsubinv := saveConvertSub_inv dp sh pre allow entries
          (by
            intro kk vv hm state2 k2 pfx2 st2 hok2
            have hsz : sizeOf vv ≤ n := by
              have h1 := List.sizeOf_lt_of_mem hm
              have h2' : sizeOf (kk, vv) = 1 + sizeOf kk + sizeOf vv := rfl
              have h3 : sizeOf (SaveVal.dict entries) = 1 + sizeOf entries := by simp
              omega
            exact ih vv hsz state2 k2 pfx2 st2 hok2)
          entries pfx entries' hsub
        constructor
        · intro d hd
          rcases astore_collectM d hd with hin | hin
          · exact Or.inl hin
          · have hin' : d ∈ collectMList entries' := by simpa [collectMVal] using hin
            rcases hsubinv.1 d hin' with hc | hc | hc
            · exact Or.inr (Or.inl (by simpa [collectMVal] using hc))
            · exact Or.inr (Or.inl (by simpa [collectMVal] using hc))
            · exact Or.inr (Or.inr hc)
        · intro o ho
          rcases astore_collectO o ho with hin | hin
          · exact Or.inl hin
          · have hin' : o ∈ collectOList entries' := by simpa [collectOVal] using hin
            rcases hsubinv.2 o hin' with hc | hc | hc
            · exact Or.inr (Or.inl (by simpa [collectOVal] using hc))
            · exact Or.inr (Or.inl (by simpa [collectOVal] using hc))
            · exact Or.inr (Or.inr hc)

theorem saveConvert_inv (dp : Nat) (sh : String) (pre : List (Nat × Nat × Nat))
    (allow : Bool) (v : SaveVal) (state : List (String × SaveVal)) (k pfx : String)
    (st' : List (String × SaveVal))
    (hok : saveConvert dp state k sh v pre pfx allow = .ok st') :
    ((∀ d ∈ collectMList st', d ∈ collectMList state ∨ d ∈ collectMVal v ∨
        (d.replica_id = .nat 0 ∧ d.prepend_axis_num = pre.length ∧
         d.allow_shape_mismatch = allow)) ∧
     (∀ o ∈ collectOList st', o ∈ collectOList state ∨ o ∈ collectOVal v ∨
        o.replica_id = .triple 0 0 dp)) :=
  saveConvert_inv_aux dp sh pre allow (sizeOf v) v (Nat.le_refl _) state k pfx st' hok

theorem topStep_inv (dp nl : Nat) (state : List (String × SaveVal)) (k : String)
    (v : SaveVal) (pfx : String) (st' : List (String × SaveVal))
    (hok : topStep dp nl state k v pfx = .ok st') :
    ((∀ d ∈ collectMList st', d ∈ collectMList state ∨ d ∈ collectMVal v ∨
        (d.replica_id = .nat 0 ∧
         d.allow_shape_mismatch = strEnds k embSuffix ∧
         d.prepend_axis_num = (if strStarts k layersPre then 1 else 0))) ∧
     (∀ o ∈ collectOList st', o ∈ collectOList state ∨ o ∈ collectOVal v ∨
        o.replica_id = .triple 0 0 dp)) := by
  unfold topStep at hok
  by_cases hs : strStarts k layersPre = true
  · rw [if_pos hs] at hok
    match hx : layerIdx? k with
    | none =>
      rw [hx] at hok
      exact Except.noConfusion hok
    | some off =>
      rw [hx] at hok
      have hinv := saveConvert_inv dp (stripLayer k) [(0, off, nl)] (strEnds k embSuffix)
        v state k pfx st' hok
      constructor
      · intro d hd
        rcases hinv.1 d hd with hc | hc | hc
        · exact Or.inl hc
        · exact Or.inr (Or.inl hc)
        · exact Or.inr (Or.inr ⟨hc.1, hc.2.2, by rw [if_pos hs]; exact hc.2.1⟩)
      · exact hinv.2
  · rw [if_neg hs] at hok
    have hinv := saveConvert_inv dp k [] (strEnds k embSuffix) v state k pfx st' hok
    constructor
    · intro d hd
      rcases hinv.1 d hd with hc | hc | hc
      · exact Or.inl hc
      · exact Or.inr (Or.inl hc)
      · refine Or.inr (Or.inr ⟨hc.1, hc.2.2, ?_⟩)
        rw [if_neg hs]
        exact hc.2.1
    · exact hinv.2

theorem topLoop_inv (dp nl : Nat) (pfx : String) :
    ∀ (items state st' : List (String × SaveVal)),
    topLoop dp nl pfx state items = .ok st' →
    ((∀ d ∈ collectMList st', d ∈ collectMList state ∨ d ∈ collectMList items ∨
        d.replica_id = .nat 0) ∧
     (∀ o ∈ collectOList st', o ∈ collectOList state ∨ o ∈ collectOList items ∨
        o.replica_id = .triple 0 0 dp))
  | [], state, st' => by
    intro h
    have hst : state = st' := Except.ok.inj h
    rw [← hst]
    exact ⟨fun d hd => Or.inl hd, fun o ho => Or.inl ho⟩
  | (k, v) :: rest, state, st' => by
    intro h
    have h2 : (do
        let st1 ← topStep dp nl state k v pfx
        topLoop dp nl pfx st1 rest) = Except.ok st' := h
    match hts : topStep dp nl state k v pfx with
    | .error e =>
      rw [hts] at h2
      simp only [exceptErrBind] at h2
      exact Except.noConfusion h2
    | .ok st1 =>
      rw [hts] at h2
      simp only [exceptOkBind] at h2
      have hstep := topStep_inv dp nl state k v pfx st1 hts
      have hrest := topLoop_inv dp nl pfx rest st1 st' h2
      constructor
      · intro d hd
        rcases hrest.1 d hd with hc | hc | hc
        · rcases hstep.1 d hc with hc' | hc' | hc'
          · exact Or.inl hc'
          · refine Or.inr (Or.inl ?_)
            simp only [collectMList]
            exact List.mem_append.mpr (Or.inl hc')
          · exact Or.inr (Or.inr hc'.1)
        · refine Or.inr (Or.inl ?_)
          simp only [collectMList]
          exact List.mem_append.mpr (Or.inr hc)
        · exact Or.inr (Or.inr hc)
      · intro o ho
        rcases hrest.2 o ho with hc | hc | hc
        · rcases hstep.2 o hc with hc' | hc' | hc'
          · exact Or.inl hc'
          · refine Or.inr (Or.inl ?_)
            simp only [collectOList]
            exact List.mem_append.mpr (Or.inl hc')
          · exact Or.inr (Or.inr hc')
        · refine Or.inr (Or.inl ?_)
          simp only [collectOList]
          exact List.mem_append.mpr (Or.inr hc)
        · exact Or.inr (Or.inr hc)

/-! ### C10: replica ids on the save path -/

/-- C10: every Dialect-A tensor descriptor produced by
`pyt_to_mcore_state_dict` carries `replica_id = 0`, and every sharded object
it produces carries `replica_id = (0, 0, dp)` where `dp` is the
data-parallel rank (with context-parallel replication folded in), for any
input state dict that does not already contain converted leaves. -/
theorem c10_replica_ids (dp : Nat) (state out : List (String × SaveVal)) (pfx : String)
    (hin1 : collectMList state = []) (hin2 : collectOList state = [])
    (hok : pyt_to_mcore_state_dict dp state pfx = .ok out) :
    (∀ d ∈ collectMList out, d.replica_id = .nat 0) ∧
    (∀ o ∈ collectOList out, o.replica_id = .triple 0 0 dp) := by
  unfold pyt_to_mcore_state_dict at hok
  match hscan : numLayersScan (state.map Prod.fst) 0 with
  | .error e =>
    rw [hscan] at hok
    simp only [exceptErrBind] at hok
    exact Except.noConfusion hok
  | .ok nl =>
    rw [hscan] at hok
    simp only [exceptOkBind] at hok
    by_cases hz : nl = 0
    · rw [if_pos hz] at hok
      exact Except.noConfusion hok
    · rw [if_neg hz] at hok
      have hinv := topLoop_inv dp nl pfx state state out hok
      constructor
      · intro d hd
        rcases hinv.1 d hd with hc | hc | hc
        · rw [hin1] at hc
          exact absurd hc (List.not_mem_nil d)
        · rw [hin1] at hc
          exact absurd hc (List.not_mem_nil d)
        · exact hc
      · intro o ho
        rcases hinv.2 o ho with hc | hc | hc
        · rw [hin2] at hc
          exact absurd hc (List.not_mem_nil o)
        · rw [hin2] at hc
          exact absurd hc (List.not_mem_nil o)
        · exact hc

/-- Witness for C10: a state dict with one layer-stacked tensor leaf and one
opaque byte-blob leaf at data-parallel rank `3`: the tensor descriptor
carries replica id `0`, the sharded object `(0, 0, 3)`. -/
theorem c10_replica_ids_witness :
    (∀ d ∈ collectMList [("module.decoder.layers.0.w",
          SaveVal.mcore [⟨"module.decoder.layers.w", ⟨0, [2]⟩, [1, 4], [0, 2], [1, 2],
            .nat 0, 1, false⟩]),
        ("e", SaveVal.obj ⟨"e", ⟨5⟩, [1], [0], .triple 0 0 3⟩)],
      d.replica_id = .nat 0) ∧
    (∀ o ∈ collectOList [("module.decoder.layers.0.w",
          SaveVal.mcore [⟨"module.decoder.layers.w", ⟨0, [2]⟩, [1, 4], [0, 2], [1, 2],
            .nat 0, 1, false⟩]),
        ("e", SaveVal.obj ⟨"e", ⟨5⟩, [1], [0], .triple 0 0 3⟩)],
      o.replica_id = .triple 0 0 3) :=
  c10_replica_ids 3
    [("module.decoder.layers.0.w", .pyt ⟨[4], [⟨⟨0, [2]⟩, ⟨[2], [2], 0⟩⟩]⟩),
     ("e", .bytes ⟨5⟩)]
    [("module.decoder.layers.0.w",
       .mcore [⟨"module.decoder.layers.w", ⟨0, [2]⟩, [1, 4], [0, 2], [1, 2],
         .nat 0, 1, false⟩]),
     ("e", .obj ⟨"e", ⟨5⟩, [1], [0], .triple 0 0 3⟩)] "" rfl rfl rfl

/-! ### C7: the shape-mismatch flag -/

/-- Counterexample to C7 as stated: the flag is computed from the top-level
key only.  Under the top-level key `a.word_embeddings.weight` (which ends
with the suffix) sits a nested leaf `b` whose full dotted key
`a.word_embeddings.weight.b` does not end with the suffix, yet its
descriptor carries `allow_shape_mismatch = true`. -/
theorem c7_counterexample :
    pyt_to_mcore_state_dict 0
      [("module.decoder.layers.0.x", .pyt ⟨[4], [⟨⟨0, [2]⟩, ⟨[2], [2], 0⟩⟩]⟩),
       ("a.word_embeddings.weight",
         .dict [("b", .pyt ⟨[4], [⟨⟨0, [2]⟩, ⟨[2], [2], 0⟩⟩]⟩)])] ""
      = .ok [("module.decoder.layers.0.x",
               .mcore [⟨"module.decoder.layers.x", ⟨0, [2]⟩, [1, 4], [0, 2], [1, 2],
                 .nat 0, 1, false⟩]),
             ("a.word_embeddings.weight",
               .dict [("b", .mcore [⟨"b.a.word_embeddings.weight", ⟨0, [2]⟩,
                 [4], [2], [2], .nat 0, 0, true⟩])])] ∧
    strEnds "a.word_embeddings.weight.b" embSuffix = false :=
  ⟨rfl, by decide⟩

/-- C7 amended: `allow_shape_mismatch` is computed from the unstripped
top-level key — every descriptor produced while converting the value under
top-level key `k` (including leaves nested in sub-mappings, which inherit
the flag) carries `allow_shape_mismatch = true` iff `k` ends with
`.word_embeddings.weight`; metadata validation enforces the per-axis
global-shape equation exactly when the flag is false, while a true flag
waives only that equation (offset divisibility is still required). -/
theorem c7_allow_flag :
    (∀ (dp nl : Nat) (state : List (String × SaveVal)) (k : String) (v : SaveVal)
        (pfx : String) (st' : List (String × SaveVal)),
      topStep dp nl state k v pfx = .ok st' →
      ∀ d ∈ collectMList st', d ∈ collectMList state ∨ d ∈ collectMVal v ∨
        d.allow_shape_mismatch = strEnds k embSuffix) ∧
    (∀ s : McoreShardedTensor, s.allow_shape_mismatch = false →
      validate_metadata_integrity s = true →
      ∀ i, i < s.global_shape.length →
        s.global_shape.getD i 0
          = s.axis_fragmentations.getD i 0 *
            (List.replicate s.prepend_axis_num 1 ++ s.data.shape).getD i 0) ∧
    (∀ s : McoreShardedTensor, s.allow_shape_mismatch = true →
      s.global_shape.length = s.global_offset.length →
      s.global_shape.length = s.axis_fragmentations.length →
      s.global_shape.length = s.prepend_axis_num + s.data.shape.length →
      (∀ i, i < s.global_shape.length →
        (List.replicate s.prepend_axis_num 1 ++ s.data.shape).getD i 0 ∣
          s.global_offset.getD i 0) →
      validate_metadata_integrity s = true) := by
  refine ⟨?_, ?_, ?_⟩
  · intro dp nl state k v pfx st' hok d hd
    rcases (topStep_inv dp nl state k v pfx st' hok).1 d hd with hc | hc | hc
    · exact Or.inl hc
    · exact Or.inr (Or.inl hc)
    · exact Or.inr (Or.inr hc.2.1)
  · intro s hallow hval i hi
    unfold validate_metadata_integrity at hval
    simp only [Bool.and_eq_true, Bool.or_eq_true, beq_iff_eq, List.all_eq_true,
      List.mem_range] at hval
    have hlen : s.global_shape.length
        = (List.replicate s.prepend_axis_num 1 ++ s.data.shape).length := hval.1.2
    have hax := hval.2 i (by omega)
    rcases hax.1 with hc | hc
    · rw [hallow] at hc
      exact absurd hc (by simp)
    · exact hc
  · intro s hallow hl1 hl2 hl3 hdvd
    unfold validate_metadata_integrity
    simp only [Bool.and_eq_true, Bool.or_eq_true, beq_iff_eq, List.all_eq_true,
      List.mem_range]
    have hreplen : (List.replicate s.prepend_axis_num 1 ++ s.data.shape).length
        = s.prepend_axis_num + s.data.shape.length := by
      rw [List.length_append, List.length_replicate]
    refine ⟨⟨⟨hl1, hl2⟩, by omega⟩, ?_⟩
    intro i hi
    refine ⟨Or.inl hallow, ?_⟩
    obtain ⟨c, hc⟩ := hdvd i (by omega)
    rw [hc, Nat.mul_mod_right]

/-- Witness for C7 amended: converting the non-layer tensor leaf `foo`
(whose key does not end with the embedding suffix) yields descriptors whose
flag equals `strEnds "foo" embSuffix`, i.e. `false`. -/
theorem c7_allow_flag_witness :
    ∀ d ∈ collectMList [("foo",
        SaveVal.mcore [⟨"foo", ⟨0, [2]⟩, [4], [2], [2], .nat 0, 0, false⟩])],
      d ∈ collectMList [("foo", SaveVal.pyt ⟨[4], [⟨⟨0, [2]⟩, ⟨[2], [2], 0⟩⟩]⟩)] ∨
      d ∈ collectMVal (SaveVal.pyt ⟨[4], [⟨⟨0, [2]⟩, ⟨[2], [2], 0⟩⟩]⟩) ∨
      d.allow_shape_mismatch = strEnds "foo" embSuffix :=
  c7_allow_flag.1 0 1 [("foo", .pyt ⟨[4], [⟨⟨0, [2]⟩, ⟨[2], [2], 0⟩⟩]⟩)] "foo"
    (.pyt ⟨[4], [⟨⟨0, [2]⟩, ⟨[2], [2], 0⟩⟩]⟩) ""
    [("foo", .mcore [⟨"foo", ⟨0, [2]⟩, [4], [2], [2], .nat 0, 0, false⟩])] rfl

/-! ### C6: the layer-count assertion -/

theorem numLayersScan_nomatch :
    ∀ (ks : List String) (acc : Nat),
    (∀ k ∈ ks, strStarts k layersPre = false) →
    numLayersScan ks acc = .ok acc
  | [], acc, _ => rfl
  | k :: ks, acc, hp => by
    unfold numLayersScan
    rw [if_neg (by rw [hp k (List.mem_cons_self k ks)]; exact Bool.false_ne_true)]
    exact numLayersScan_nomatch ks acc (fun k' hk' => hp k' (List.mem_cons_of_mem k hk'))

/-- Counterexample to C6 as stated: a state dict with no key matching the
layer-stack convention does not succeed — the unconditional
`assert num_layers != 0` aborts the conversion. -/
theorem c6_counterexample :
    pyt_to_mcore_state_dict 0 [("foo", .pyt ⟨[4], [⟨⟨0, [2]⟩, ⟨[2], [2], 0⟩⟩]⟩)] ""
      = .error .assertNumLayers := rfl

/-- C6 amended: `pyt_to_mcore_state_dict` aborts with the layer-count
assertion on every state dict in which no key matches the layer-stack
convention; when at least one layer key exists, a tensor leaf under a
non-matching key is converted with empty prepend offsets
(`prepend_axis_num = 0`) while the layer key's index becomes one prepend
offset (`prepend_axis_num = 1`). -/
theorem c6_layer_assert :
    (∀ (dp : Nat) (state : List (String × SaveVal)) (pfx : String),
      (∀ k ∈ state.map Prod.fst, strStarts k layersPre = false) →
      pyt_to_mcore_state_dict dp state pfx = .error .assertNumLayers) ∧
    pyt_to_mcore_state_dict 0
      [("module.decoder.layers.0.w", .pyt ⟨[4], [⟨⟨0, [2]⟩, ⟨[2], [2], 0⟩⟩]⟩),
       ("foo", .pyt ⟨[4], [⟨⟨0, [2]⟩, ⟨[2], [2], 0⟩⟩]⟩)] ""
      = .ok [("module.decoder.layers.0.w",
               .mcore [⟨"module.decoder.layers.w", ⟨0, [2]⟩, [1, 4], [0, 2], [1, 2],
                 .nat 0, 1, false⟩]),
             ("foo", .mcore [⟨"foo", ⟨0, [2]⟩, [4], [2], [2], .nat 0, 0, false⟩])] := by
  constructor
  · intro dp state pfx hp
    unfold pyt_to_mcore_state_dict
    rw [numLayersScan_nomatch (state.map Prod.fst) 0 hp]
    rfl
  · rfl

/-- Witness for C6 amended: a state dict whose single key does not match the
layer convention aborts with the layer-count assertion. -/
theorem c6_layer_assert_witness :
    pyt_to_mcore_state_dict 0 [("bar", .bytes ⟨0⟩)] ""
      = .error .assertNumLayers :=
  c6_layer_assert.1 0 [("bar", .bytes ⟨0⟩)] "" (by decide)

end NeMo
